import Mathlib

/-!
# Graphical symbols for logical elements: lexer, parser and renderers

A shallow embedding of `Lab3+/Lab3+.cpp`.  The program tokenises a boolean
expression (`Lexer`), builds a tree by recursive descent (`Parser`) and prints
the tree in two textual views (`UGORenderer`).

Modelling conventions.

* `std::string` is a Lean `String`; a `char` is a `Char`.  The `<cctype>`
  classifiers `isspace`, `isalpha`, `isalnum` are the ones of the "C" locale;
  a character outside ASCII belongs to none of the classes, so the lexer
  skips it like any other unknown character.
* The lexer's pair `(expr, pos)` is represented by the unread suffix
  `expr[pos..]`, a `List Char`: `pos++` drops the head of the suffix and
  `pos >= expr.length()` is the empty suffix.
* `shared_ptr<ASTNode>` is `Option ASTNode`; `nullptr` is `none`.  Access
  through a null pointer (`node->hasNot`, `children[i]->type`) is the fault
  `Fault.nullDeref`.
* The mutually recursive parser functions and their `while` loops take a fuel
  argument; `Fault.outOfFuel` is the only result that does not correspond to a
  behaviour of the program, and `parse_total` shows it never comes out of
  `parse`.
* `cout` is the `String` of everything written to it.
-/

namespace Lab3

/-! ## Tokens -/

/-- Token kinds (`enum MyTokenType`). -/
inductive MyTokenType where
  | NULLID
  | IDENTIFIER
  | OPERATOR
  | NOT
  | LPAREN
  | RPAREN
  | END
  deriving DecidableEq, Repr

/-- Token (`struct Token`). -/
structure Token where
  type : MyTokenType
  value : String
  deriving DecidableEq, Repr

/-! ## Character classes -/

/-- The `isspace` of the "C" locale: space, `\t`, `\n`, `\v`, `\f`, `\r`. -/
def isspace (c : Char) : Bool :=
  c == ' ' || (9 ≤ c.toNat && c.toNat ≤ 13)

/-- The `isalpha` of the "C" locale. -/
def isalpha (c : Char) : Bool :=
  (65 ≤ c.toNat && c.toNat ≤ 90) || (97 ≤ c.toNat && c.toNat ≤ 122)

/-- The `isalnum` of the "C" locale. -/
def isalnum (c : Char) : Bool :=
  isalpha c || (48 ≤ c.toNat && c.toNat ≤ 57)

/-- Loop condition of the identifier scan: `isalnum(expr[pos]) || expr[pos] == '_'`. -/
def identChar (c : Char) : Bool :=
  isalnum c || c == '_'

/-! ## Lexer -/

/-- `Lexer::getNextToken` on the unread suffix; returns the token and the new
suffix.  The leading `while` over white space and the final
`pos++; return getNextToken();` both drop one character and scan again. -/
def getNextToken : List Char → Token × List Char
  | [] => (⟨.END, ""⟩, [])
  | current :: rest =>
    if isspace current then getNextToken rest
    else if current == '&' || current == '|' || current == '^' then
      (⟨.OPERATOR, String.singleton current⟩, rest)
    else if current == '!' then (⟨.NOT, "!"⟩, rest)
    else if current == '(' then (⟨.LPAREN, ""⟩, rest)
    else if current == ')' then (⟨.RPAREN, ""⟩, rest)
    else if isalpha current || current == '_' then
      (⟨.IDENTIFIER, String.mk ((current :: rest).takeWhile identChar)⟩,
        (current :: rest).dropWhile identChar)
    else getNextToken rest

/-! ## Syntax tree -/

/-- Tree node (`struct ASTNode`); a child pointer may be null. -/
inductive ASTNode where
  | mk (value : String) (type : MyTokenType) (children : List (Option ASTNode))
      (hasNot : Bool)


/-- A `shared_ptr<ASTNode>`; `none` is the null pointer. -/
abbrev Ptr := Option ASTNode

namespace ASTNode

/-- Field `value`. -/
def value : ASTNode → String
  | mk v _ _ _ => v

/-- Field `type`. -/
def type : ASTNode → MyTokenType
  | mk _ t _ _ => t

/-- Field `children`. -/
def children : ASTNode → List Ptr
  | mk _ _ cs _ => cs

/-- Field `hasNot`. -/
def hasNot : ASTNode → Bool
  | mk _ _ _ h => h

/-- Constructor `ASTNode(t, v)`: no children, `hasNot = false`. -/
def new (t : MyTokenType) (v : String) : ASTNode :=
  mk v t [] false

/-- Assignment `node->hasNot = b`. -/
def setHasNot (b : Bool) : ASTNode → ASTNode
  | mk v t cs _ => mk v t cs b

/-- Call `node->children.push_back(c)`. -/
def pushChild (c : Ptr) : ASTNode → ASTNode
  | mk v t cs h => mk v t (cs ++ [c]) h

end ASTNode

/-! ## Parser -/

/-- What can go wrong while running the model. -/
inductive Fault where
  /-- A null `shared_ptr` is dereferenced (undefined behaviour in the program). -/
  | nullDeref
  /-- The model ran out of fuel; not a behaviour of the program. -/
  | outOfFuel
  deriving DecidableEq, Repr

/-- State of a `Parser`: the lexer (its unread suffix) and `currentToken`. -/
structure Parser where
  lexer : List Char
  currentToken : Token
  deriving DecidableEq, Repr

namespace Parser

/-- Constructor `Parser(expr)`: reads the first token. -/
def new (expr : String) : Parser :=
  let r := getNextToken expr.data
  ⟨r.2, r.1⟩

/-- `Parser::eat`: advances only when the current token has the expected type. -/
def eat (p : Parser) (type : MyTokenType) : Parser :=
  if p.currentToken.type = type then
    let r := getNextToken p.lexer
    ⟨r.2, r.1⟩
  else p

/-- Loop condition of `factor`: the current token is `&` or `^`. -/
def atFactorOp (p : Parser) : Bool :=
  p.currentToken.type == .OPERATOR &&
    (p.currentToken.value == "&" || p.currentToken.value == "^")

/-- Loop condition of `term`: the current token is `|`. -/
def atTermOp (p : Parser) : Bool :=
  p.currentToken.type == .OPERATOR && p.currentToken.value == "|"

/-- Body shared by both loops after the right operand is parsed: a new
`OPERATOR` node with the children `node` and `right`, in that order. -/
def newNode (op : Token) (node right : Ptr) : ASTNode :=
  ((ASTNode.new .OPERATOR op.value).pushChild node).pushChild right

mutual

/-- `Parser::primary`. -/
def primary : Nat → Parser → Except Fault (Ptr × Parser)
  | 0, _ => .error .outOfFuel
  | fuel + 1, p =>
    let token := p.currentToken
    if token.type = .IDENTIFIER then
      let p := p.eat .IDENTIFIER
      .ok (some (ASTNode.new .IDENTIFIER token.value), p)
    else if token.type = .LPAREN then
      let p := p.eat .LPAREN
      match expression fuel p with
      | .error e => .error e
      | .ok (node, p) => .ok (node, p.eat .RPAREN)
    else if token.type = .NOT then
      let p := p.eat .NOT
      match primary fuel p with
      | .error e => .error e
      | .ok (none, _) => .error .nullDeref
      | .ok (some node, p) => .ok (some (node.setHasNot true), p)
    else .ok (none, p)

/-- The `while` loop of `Parser::factor`, entered with the accumulated `node`. -/
def factorLoop : Nat → Ptr → Parser → Except Fault (Ptr × Parser)
  | 0, _, _ => .error .outOfFuel
  | fuel + 1, node, p =>
    if p.atFactorOp then
      let op := p.currentToken
      let p := p.eat .OPERATOR
      match primary fuel p with
      | .error e => .error e
      | .ok (right, p) => factorLoop fuel (some (newNode op node right)) p
    else .ok (node, p)

/-- `Parser::factor`. -/
def factor : Nat → Parser → Except Fault (Ptr × Parser)
  | 0, _ => .error .outOfFuel
  | fuel + 1, p =>
    match primary fuel p with
    | .error e => .error e
    | .ok (node, p) => factorLoop fuel node p

/-- The `while` loop of `Parser::term`, entered with the accumulated `node`. -/
def termLoop : Nat → Ptr → Parser → Except Fault (Ptr × Parser)
  | 0, _, _ => .error .outOfFuel
  | fuel + 1, node, p =>
    if p.atTermOp then
      let op := p.currentToken
      let p := p.eat .OPERATOR
      match factor fuel p with
      | .error e => .error e
      | .ok (right, p) => termLoop fuel (some (newNode op node right)) p
    else .ok (node, p)

/-- `Parser::term`. -/
def term : Nat → Parser → Except Fault (Ptr × Parser)
  | 0, _ => .error .outOfFuel
  | fuel + 1, p =>
    match factor fuel p with
    | .error e => .error e
    | .ok (node, p) => termLoop fuel node p

/-- `Parser::expression`. -/
def expression : Nat → Parser → Except Fault (Ptr × Parser)
  | 0, _ => .error .outOfFuel
  | fuel + 1, p => term fuel p

end

/-- `Parser::parse` with an explicit amount of fuel. -/
def parseWith (fuel : Nat) (p : Parser) : Except Fault (Ptr × Parser) :=
  expression fuel p

end Parser

/-- Fuel that is enough for every text: six calls per character, plus the
calls made on the empty text. -/
def parseFuel (expr : String) : Nat :=
  6 * expr.length + 12

/-- The program's `Parser parser(expr); parser.parse()`: the tree, or the fault. -/
def parse (expr : String) : Except Fault Ptr :=
  match (Parser.new expr).parseWith (parseFuel expr) with
  | .error e => .error e
  | .ok (node, _) => .ok node


/-! ## Renderer -/

namespace UGORenderer

/-- Display name chosen in `renderNode` for an operator node's `value`. -/
def opSymbol (value : String) : String :=
  if value = "&" then "AND"
  else if value = "|" then "OR"
  else if value = "^" then "XOR"
  else value

/-- The C++ `string indent(depth * 2, ' ')`. -/
def indent (depth : Nat) : String :=
  String.mk (List.replicate (depth * 2) ' ')

mutual

/-- `UGORenderer::renderNode` on a non-null node: the text written to `cout`. -/
def renderNodeAt : ASTNode → Nat → Except Fault String
  | .mk value type children hasNot, depth =>
    match type with
    | .IDENTIFIER =>
      .ok (indent depth ++ (if hasNot then "○" else "") ++ value ++ "\n")
    | .OPERATOR =>
      match renderInputs children 0 depth with
      | .error e => .error e
      | .ok inputs =>
        .ok (indent depth ++ "+----------------+" ++ "\n" ++
             indent depth ++ "|      " ++ opSymbol value ++ "      |" ++ "\n" ++
             indent depth ++ "+----------------+" ++ "\n" ++ inputs)
    | _ => .ok ""

/-- The `for` loop of `renderNode` over `children[i..]`; `children[i]->type`
is read without a null check. -/
def renderInputs : List Ptr → Nat → Nat → Except Fault String
  | [], _, _ => .ok ""
  | none :: _, _, _ => .error .nullDeref
  | some child :: rest, i, depth =>
    match (if child.type = .IDENTIFIER then
             Except.ok ((if child.hasNot then "○" else "") ++ child.value)
           else
             match renderNodeAt child (depth + 3) with
             | .error e => .error e
             | .ok s => .ok ("\n" ++ s)) with
    | .error e => .error e
    | .ok line =>
      match renderInputs rest (i + 1) depth with
      | .error e => .error e
      | .ok more =>
        .ok (indent depth ++ "   вход " ++ toString (i + 1) ++ ": " ++ line ++ "\n" ++ more)

end

/-- `UGORenderer::renderNode`: a null `node` writes nothing. -/
def renderNode : Ptr → Nat → Except Fault String
  | none, _ => .ok ""
  | some node, depth => renderNodeAt node depth

/-- `UGORenderer::render`: the schematic view between its header and footer. -/
def render (ast : Ptr) : Except Fault String :=
  match renderNode ast 0 with
  | .error e => .error e
  | .ok body =>
    .ok ("Условно-графическое обозначение (УГО):" ++ "\n" ++
         "======================================" ++ "\n" ++
         body ++
         "  выход: Y" ++ "\n" ++
         "======================================" ++ "\n")

mutual

/-- `UGORenderer::printAST` on a non-null node: the text written to `cout`. -/
def printASTAt : ASTNode → Nat → String
  | .mk value type children hasNot, depth =>
    indent depth ++
      match type with
      | .IDENTIFIER =>
        "IDENTIFIER: " ++ value ++ (if hasNot then " (NOT)" else "") ++ "\n"
      | .OPERATOR =>
        "OPERATOR: " ++ value ++ "\n" ++ printChildren children (depth + 1)
      | _ => ""

/-- The `for` loop of `printAST` over the children; a null child writes nothing. -/
def printChildren : List Ptr → Nat → String
  | [], _ => ""
  | none :: rest, depth => printChildren rest depth
  | some child :: rest, depth => printASTAt child depth ++ printChildren rest depth

end

/-- `UGORenderer::printAST`: a null `node` writes nothing. -/
def printAST : Ptr → Nat → String
  | none, _ => ""
  | some node, depth => printASTAt node depth

end UGORenderer

/-- What `main` does with one expression text in the interactive loop: parse
it, print the structural dump, then the schematic view.  The result is all
the text written, or the fault that stopped the program. -/
def processExpression (expr : String) : Except Fault String :=
  match parse expr with
  | .error e => .error e
  | .ok ast =>
    match UGORenderer.render ast with
    | .error e => .error e
    | .ok ugo =>
      .ok ("\nAST структура:" ++ "\n" ++ UGORenderer.printAST ast 0 ++
           "\nУГО представление:" ++ "\n" ++ ugo)

/-! ## Vocabulary of the specification -/

/-- A named input: an `IDENTIFIER` node without children. -/
def Leaf (name : String) (negated : Bool) : ASTNode :=
  .mk name .IDENTIFIER [] negated

/-- An operator node over the given operands; `op` is the operator's text. -/
def Gate (op : String) (negated : Bool) (operands : List Ptr) : ASTNode :=
  .mk op .OPERATOR operands negated

/-- The C `isdigit`. -/
def isdigit (c : Char) : Bool :=
  48 ≤ c.toNat && c.toNat ≤ 57

/-- An identifier name: non-empty, made of ASCII letters, digits and
underscores, and not starting with a digit. -/
def IsIdentifier (s : String) : Prop :=
  s.data ≠ [] ∧ (∀ c ∈ s.data, identChar c = true) ∧
    ∀ c, s.data.head? = some c → isdigit c = false

instance (s : String) : Decidable (IsIdentifier s) := by
  unfold IsIdentifier; infer_instance

/-! ## Auxiliary notions for the proofs -/

/-- The text `x & y1 & ... & yn`. -/
def andText (x : String) (ys : List String) : String :=
  ys.foldl (fun acc y => acc ++ " & " ++ y) x

/-- The left-leaning fold `((x & y1) & ...) & yn` of binary `&` gates. -/
def andTree (x : String) (ys : List String) : ASTNode :=
  ys.foldl (fun acc y => Gate "&" false [some acc, some (Leaf y false)]) (Leaf x false)

/-- The characters of ` & y1 & ... & yn`. -/
def andTail : List String → List Char
  | [] => []
  | y :: ys => ' ' :: '&' :: ' ' :: (y.data ++ andTail ys)

/-- The text `l` cannot extend an identifier that ends just before it. -/
def EndsIdent : List Char → Prop
  | [] => True
  | c :: _ => identChar c = false

namespace Parser

/-- The result is a behaviour of the program, not an exhausted model. -/
def Settled (r : Except Fault (Ptr × Parser)) : Prop :=
  r ≠ .error .outOfFuel

/-- Upper bound on the tokens still to be consumed: the unread characters,
plus one for a current token other than `END`. -/
def size (p : Parser) : Nat :=
  p.lexer.length + (if p.currentToken.type = .END then 0 else 1)

/-- With fuel `6 * m + c` the function settles on every state of size at
most `m`, and leaves a state that is no larger. -/
def Runs (f : Nat → Parser → Except Fault (Ptr × Parser)) (c m : Nat) : Prop :=
  ∀ p fuel, size p ≤ m → 6 * m + c ≤ fuel →
    f fuel p = .error .nullDeref ∨ ∃ node q, f fuel p = .ok (node, q) ∧ size q ≤ size p

/-- All six runs at sizes below `m`. -/
def RunsBelow (m : Nat) : Prop :=
  ∀ k, k < m → Runs primary 1 k ∧ (∀ node, Runs (factorLoop · node) 1 k) ∧
    Runs factor 2 k ∧ (∀ node, Runs (termLoop · node) 3 k) ∧ Runs term 4 k ∧
    Runs expression 5 k

/-- Sequencing of two parser steps: a fault of the first step is the result. -/
def andThen (r : Except Fault (Ptr × Parser))
    (f : Ptr → Parser → Except Fault (Ptr × Parser)) : Except Fault (Ptr × Parser) :=
  match r with
  | .error e => .error e
  | .ok (node, q) => f node q

/-- The statement `node->hasNot = true; return node;` of `primary`. -/
def markNot (node : Ptr) (q : Parser) : Except Fault (Ptr × Parser) :=
  match node with
  | none => .error .nullDeref
  | some n => .ok (some (n.setHasNot true), q)

/-- State `p'` reads a text with one more `)` at its end than state `p`:
either the extra `)` is still unread, or `p'` holds it as current token
where `p` is at `END`, or it is consumed and the states agree. -/
def Trails (p' p : Parser) : Prop :=
  (p'.lexer = p.lexer ++ [')'] ∧ p'.currentToken = p.currentToken) ∨
    (p' = ⟨[], ⟨.RPAREN, ""⟩⟩ ∧ p = ⟨[], ⟨.END, ""⟩⟩) ∨ p' = p

/-- Two results agree: the same fault, or the same node with states related
by `Trails`. -/
def SameResult (r' r : Except Fault (Ptr × Parser)) : Prop :=
  match r', r with
  | .error e', .error e => e' = e
  | .ok (n', q'), .ok (n, q) => n' = n ∧ Trails q' q
  | _, _ => False

end Parser

/-- The character makes `getNextToken` return a token when it is met outside
white space: an operator, `!`, a parenthesis, or the start of an identifier. -/
def startsToken (c : Char) : Bool :=
  (c == '&' || c == '|' || c == '^') || c == '!' || c == '(' || c == ')' ||
    (isalpha c || c == '_')

/-- The unread text after `i` calls of `getNextToken` on the text `l`. -/
def lexerAfter : Nat → List Char → List Char
  | 0, l => l
  | i + 1, l => lexerAfter i (getNextToken l).2

/-- The token returned by call number `i + 1` of `getNextToken` on the text `l`. -/
def nthToken (l : List Char) (i : Nat) : Token :=
  (getNextToken (lexerAfter i l)).1

/-- A character the lexer recognises as nothing: not white space, not one of
`& | ^ ! ( )`, and not an ASCII letter, digit or underscore. -/
def unrecognized (c : Char) : Bool :=
  !isspace c && !(c == '&' || c == '|' || c == '^' || c == '!' || c == '(' || c == ')') &&
    !identChar c

/-- Replaces an unrecognized character by a space. -/
def blank (c : Char) : Char :=
  if unrecognized c then ' ' else c

/-! ## Trees of the specification's data model -/

mutual

/-- The node and all nodes below it are a Leaf (an `IDENTIFIER` without
children) or a Gate (an `OPERATOR`) none of whose operands is absent. -/
def isTree : ASTNode → Bool
  | .mk _ type children _ =>
    match type with
    | .IDENTIFIER => children.isEmpty
    | .OPERATOR => allTrees children
    | _ => false

/-- Every operand is present and `isTree`. -/
def allTrees : List Ptr → Bool
  | [] => true
  | none :: _ => false
  | some child :: rest => isTree child && allTrees rest

end

mutual

/-- Number of nodes of the tree. -/
def nodeCount : ASTNode → Nat
  | .mk _ _ children _ => 1 + nodeCountAll children

/-- Number of nodes of the present operands. -/
def nodeCountAll : List Ptr → Nat
  | [] => 0
  | none :: rest => nodeCountAll rest
  | some child :: rest => nodeCount child + nodeCountAll rest

end

/-- The text made of the given lines, one after the other. -/
def concatLines : List String → String
  | [] => ""
  | line :: rest => line ++ concatLines rest

/-- Text of a node's line in the structural dump, without indentation and
line end. -/
def dumpLabel (node : ASTNode) : String :=
  match node.type with
  | .IDENTIFIER => "IDENTIFIER: " ++ node.value ++ (if node.hasNot then " (NOT)" else "")
  | .OPERATOR => "OPERATOR: " ++ node.value
  | _ => ""

/-- The line of a node at a depth: two spaces per level, the label, a line end. -/
def dumpLine (node : ASTNode) (depth : Nat) : String :=
  String.mk (List.replicate (2 * depth) ' ') ++ dumpLabel node ++ "\n"

mutual

/-- Pre-order listing of a tree: the line of the node, then the listings of
its operands one level deeper, in order. -/
def preorderLines : ASTNode → Nat → List String
  | .mk value type children hasNot, depth =>
    dumpLine (.mk value type children hasNot) depth :: preorderAll children (depth + 1)

/-- Pre-order listings of the present operands, in order. -/
def preorderAll : List Ptr → Nat → List String
  | [], _ => []
  | none :: rest, depth => preorderAll rest depth
  | some child :: rest, depth => preorderLines child depth ++ preorderAll rest depth

end

mutual

/-- No name or operator text in the tree contains a line break. -/
def noLineBreak : ASTNode → Bool
  | .mk value _ children _ => value.data.count '\n' == 0 && noLineBreakAll children

/-- No present operand contains a line break in a name or operator text. -/
def noLineBreakAll : List Ptr → Bool
  | [] => true
  | none :: rest => noLineBreakAll rest
  | some child :: rest => noLineBreak child && noLineBreakAll rest

end

/-- Widths of the lines of a text, in order; `acc` is the width of the line
being read.  A last line without line end counts when it is not empty. -/
def lineWidthsFrom : List Char → Nat → List Nat
  | [], acc => if acc = 0 then [] else [acc]
  | c :: rest, acc => if c = '\n' then acc :: lineWidthsFrom rest 0 else lineWidthsFrom rest (acc + 1)

/-- Widths of the lines of a text, in order. -/
def lineWidths (s : String) : List Nat :=
  lineWidthsFrom s.data 0

mutual

/-- Every node of the tree is a Leaf whose name is an identifier, or a Gate
whose operator is `&`, `|` or `^` and whose operand list has exactly two
entries (an entry may be null). -/
def wellFormed : ASTNode → Bool
  | .mk value type children _ =>
    match type with
    | .IDENTIFIER => decide (IsIdentifier value) && children.isEmpty
    | .OPERATOR =>
      (value == "&" || value == "|" || value == "^") && children.length == 2 &&
        wellFormedAll children
    | _ => false

/-- Every present operand is `wellFormed`. -/
def wellFormedAll : List Ptr → Bool
  | [] => true
  | none :: rest => wellFormedAll rest
  | some child :: rest => wellFormed child && wellFormedAll rest

end

namespace Parser

/-- An `IDENTIFIER` token carries an identifier name. -/
def TokenOk (t : Token) : Prop :=
  t.type = .IDENTIFIER → IsIdentifier t.value

/-- A null pointer, or a pointer to a `wellFormed` tree. -/
def PtrOk (node : Ptr) : Prop :=
  ∀ t, node = some t → wellFormed t = true

/-- A returned tree is `wellFormed` and the state left holds a token that is `TokenOk`. -/
def ResultOk (r : Except Fault (Ptr × Parser)) : Prop :=
  ∀ node q, r = .ok (node, q) → PtrOk node ∧ TokenOk q.currentToken

end Parser

/-- The flag of a node once gate flags are cleared: `false` on an `OPERATOR`
node, unchanged on any other. -/
def clearFlag (type : MyTokenType) (hasNot : Bool) : Bool :=
  match type with
  | .OPERATOR => false
  | _ => hasNot

mutual

/-- The tree with the `hasNot` flag cleared on every `OPERATOR` node. -/
def clearGateNot : ASTNode → ASTNode
  | .mk value type children hasNot =>
    .mk value type (clearGateNotAll children) (clearFlag type hasNot)

/-- The operands with `clearGateNot` applied to the present ones. -/
def clearGateNotAll : List Ptr → List Ptr
  | [] => []
  | none :: rest => none :: clearGateNotAll rest
  | some child :: rest => some (clearGateNot child) :: clearGateNotAll rest

end

/-- Fully parenthesized printing: a leaf is its name, a gate with the two
operands `l`, `r` is `(`, `l`, the operator, `r`, `)`; a set flag puts `!` in
front.  Other nodes print as the empty text. -/
def showTree : ASTNode → String
  | .mk value .IDENTIFIER _ hasNot => (if hasNot then "!" else "") ++ value
  | .mk value .OPERATOR [some l, some r] hasNot =>
    (if hasNot then "!" else "") ++ "(" ++ showTree l ++ value ++ showTree r ++ ")"
  | _ => ""

namespace Parser

/-- From the state that starts reading `input ++ rest`, `primary` returns
`node` and leaves the state that starts reading `rest`, for every amount of
fuel from some amount on. -/
def PrimaryReads (input : List Char) (node : ASTNode) : Prop :=
  ∀ rest, EndsIdent rest → ∃ N, ∀ m, N ≤ m →
    primary m ⟨(getNextToken (input ++ rest)).2, (getNextToken (input ++ rest)).1⟩ =
      .ok (some node, ⟨(getNextToken rest).2, (getNextToken rest).1⟩)

end Parser

/-! # Theorems -/

namespace Parser

/-! ## Unfolding the parser one call at a time -/

theorem primary_succ (fuel : Nat) (p : Parser) :
    primary (fuel + 1) p =
      if p.currentToken.type = .IDENTIFIER then
        .ok (some (ASTNode.new .IDENTIFIER p.currentToken.value), p.eat .IDENTIFIER)
      else if p.currentToken.type = .LPAREN then
        match expression fuel (p.eat .LPAREN) with
        | .error e => .error e
        | .ok (node, q) => .ok (node, q.eat .RPAREN)
      else if p.currentToken.type = .NOT then
        match primary fuel (p.eat .NOT) with
        | .error e => .error e
        | .ok (none, _) => .error .nullDeref
        | .ok (some node, q) => .ok (some (node.setHasNot true), q)
      else .ok (none, p) := by
  rw [primary]

theorem factorLoop_succ (fuel : Nat) (node : Ptr) (p : Parser) :
    factorLoop (fuel + 1) node p =
      if p.atFactorOp then
        match primary fuel (p.eat .OPERATOR) with
        | .error e => .error e
        | .ok (right, q) => factorLoop fuel (some (newNode p.currentToken node right)) q
      else .ok (node, p) := by
  rw [factorLoop]

theorem factor_succ (fuel : Nat) (p : Parser) :
    factor (fuel + 1) p =
      match primary fuel p with
      | .error e => .error e
      | .ok (node, q) => factorLoop fuel node q := by
  rw [factor]

theorem termLoop_succ (fuel : Nat) (node : Ptr) (p : Parser) :
    termLoop (fuel + 1) node p =
      if p.atTermOp then
        match factor fuel (p.eat .OPERATOR) with
        | .error e => .error e
        | .ok (right, q) => termLoop fuel (some (newNode p.currentToken node right)) q
      else .ok (node, p) := by
  rw [termLoop]

theorem term_succ (fuel : Nat) (p : Parser) :
    term (fuel + 1) p =
      match factor fuel p with
      | .error e => .error e
      | .ok (node, q) => termLoop fuel node q := by
  rw [term]

theorem expression_succ (fuel : Nat) (p : Parser) :
    expression (fuel + 1) p = term fuel p := by
  rw [expression]

theorem fuel_succ (n : Nat) :
    (∀ p, Settled (primary n p) → primary (n + 1) p = primary n p) ∧
    (∀ node p, Settled (factorLoop n node p) → factorLoop (n + 1) node p = factorLoop n node p) ∧
    (∀ p, Settled (factor n p) → factor (n + 1) p = factor n p) ∧
    (∀ node p, Settled (termLoop n node p) → termLoop (n + 1) node p = termLoop n node p) ∧
    (∀ p, Settled (term n p) → term (n + 1) p = term n p) ∧
    (∀ p, Settled (expression n p) → expression (n + 1) p = expression n p) := by
  induction n with
  | zero => simp [Settled, primary, factorLoop, factor, termLoop, term, expression]
  | succ k ih =>
    obtain ⟨hP, hFL, hF, hTL, hT, hE⟩ := ih
    refine ⟨?_, ?_, ?_, ?_, ?_, ?_⟩
    · intro p h
      rw [primary_succ (k + 1) p]
      rw [primary_succ k p] at h ⊢
      split_ifs at h ⊢ with h1 h2 h3
      · rfl
      · cases hx : expression k (p.eat .LPAREN) with
        | error e =>
          rw [hx] at h
          rw [hE _ (by rw [hx]; exact h), hx]
        | ok r => rw [hE _ (by rw [hx]; simp [Settled]), hx]
      · cases hx : primary k (p.eat .NOT) with
        | error e =>
          rw [hx] at h
          rw [hP _ (by rw [hx]; exact h), hx]
        | ok r => rw [hP _ (by rw [hx]; simp [Settled]), hx]
      · rfl
    · intro node p h
      rw [factorLoop_succ (k + 1) node p]
      rw [factorLoop_succ k node p] at h ⊢
      split_ifs at h ⊢ with h1
      · cases hx : primary k (p.eat .OPERATOR) with
        | error e =>
          rw [hx] at h
          rw [hP _ (by rw [hx]; exact h), hx]
        | ok r =>
          rw [hx] at h
          rw [hP _ (by rw [hx]; simp [Settled]), hx]
          exact hFL _ _ h
      · rfl
    · intro p h
      rw [factor_succ (k + 1) p]
      rw [factor_succ k p] at h ⊢
      cases hx : primary k p with
      | error e =>
        rw [hx] at h
        rw [hP _ (by rw [hx]; exact h), hx]
      | ok r =>
        rw [hx] at h
        rw [hP _ (by rw [hx]; simp [Settled]), hx]
        exact hFL _ _ h
    · intro node p h
      rw [termLoop_succ (k + 1) node p]
      rw [termLoop_succ k node p] at h ⊢
      split_ifs at h ⊢ with h1
      · cases hx : factor k (p.eat .OPERATOR) with
        | error e =>
          rw [hx] at h
          rw [hF _ (by rw [hx]; exact h), hx]
        | ok r =>
          rw [hx] at h
          rw [hF _ (by rw [hx]; simp [Settled]), hx]
          exact hTL _ _ h
      · rfl
    · intro p h
      rw [term_succ (k + 1) p]
      rw [term_succ k p] at h ⊢
      cases hx : factor k p with
      | error e =>
        rw [hx] at h
        rw [hF _ (by rw [hx]; exact h), hx]
      | ok r =>
        rw [hx] at h
        rw [hF _ (by rw [hx]; simp [Settled]), hx]
        exact hTL _ _ h
    · intro p h
      rw [expression_succ (k + 1) p]
      rw [expression_succ k p] at h ⊢
      exact hT _ h

/-- More fuel does not change a settled result of `expression`. -/
theorem expression_fuel_mono {n m : Nat} {p : Parser} (hnm : n ≤ m)
    (h : Settled (expression n p)) : expression m p = expression n p := by
  induction m, hnm using Nat.le_induction with
  | base => rfl
  | succ k _ ih => rw [(fuel_succ k).2.2.2.2.2 p (by rw [ih]; exact h), ih]

end Parser

/-! ## The lexer consumes what it returns -/

theorem identChar_of_start {c : Char} (h : (isalpha c || c == '_') = true) :
    identChar c = true := by
  unfold identChar isalnum
  cases ha : isalpha c <;> simp_all

theorem length_dropWhile_le (f : Char → Bool) (l : List Char) :
    (l.dropWhile f).length ≤ l.length := by
  induction l with
  | nil => simp
  | cons a t ih =>
    rw [List.dropWhile_cons]
    split
    · exact Nat.le_succ_of_le ih
    · exact Nat.le_refl _

/-- Characters still to be paid for after a call of `getNextToken`. -/
theorem getNextToken_cost_cases (c : Char) (rest : List Char) :
    getNextToken (c :: rest) = getNextToken rest ∨
      ((getNextToken (c :: rest)).1.type ≠ .END ∧
        (getNextToken (c :: rest)).2.length ≤ rest.length) := by
  rw [getNextToken]
  by_cases h1 : isspace c = true
  · left; rw [if_pos h1]
  rw [if_neg h1]
  by_cases h2 : (c == '&' || c == '|' || c == '^') = true
  · right; rw [if_pos h2]; simp
  rw [if_neg h2]
  by_cases h3 : (c == '!') = true
  · right; rw [if_pos h3]; simp
  rw [if_neg h3]
  by_cases h4 : (c == '(') = true
  · right; rw [if_pos h4]; simp
  rw [if_neg h4]
  by_cases h5 : (c == ')') = true
  · right; rw [if_pos h5]; simp
  rw [if_neg h5]
  by_cases h6 : (isalpha c || c == '_') = true
  · right
    rw [if_pos h6]
    refine ⟨by simp, ?_⟩
    simp only [List.dropWhile_cons, identChar_of_start h6, if_true]
    exact length_dropWhile_le identChar rest
  · left; rw [if_neg h6]

/-- A token other than `END` costs at least one character. -/
theorem getNextToken_size (l : List Char) :
    (getNextToken l).2.length + (if (getNextToken l).1.type = .END then 0 else 1) ≤ l.length := by
  induction l with
  | nil => simp [getNextToken]
  | cons c rest ih =>
    rcases getNextToken_cost_cases c rest with h | ⟨h1, h2⟩
    · rw [h]; exact Nat.le_succ_of_le ih
    · rw [if_neg h1]; simpa using h2

namespace Parser

theorem size_new (expr : String) : size (new expr) ≤ expr.length := by
  unfold size new
  exact getNextToken_size expr.data

theorem size_eat_le (p : Parser) (t : MyTokenType) : size (p.eat t) ≤ size p := by
  unfold eat
  split_ifs with h
  · have := getNextToken_size p.lexer
    unfold size
    simp only
    omega
  · exact Nat.le_refl _

theorem size_eat_lt (p : Parser) (t : MyTokenType) (h : p.currentToken.type = t)
    (hEnd : t ≠ .END) : size (p.eat t) < size p := by
  have := getNextToken_size p.lexer
  have hp : (if p.currentToken.type = .END then 0 else 1) = 1 :=
    if_neg (by rw [h]; exact hEnd)
  unfold eat size
  rw [if_pos h, hp]
  simp only
  omega

theorem size_zero {p : Parser} (h : size p = 0) : p.currentToken.type = .END := by
  unfold size at h
  by_contra hne
  rw [if_neg hne] at h
  omega

theorem runs_primary (m : Nat) (ih : RunsBelow m) : Runs primary 1 m := by
  intro p fuel hp hf
  obtain ⟨n, rfl⟩ : ∃ n, fuel = n + 1 := ⟨fuel - 1, by omega⟩
  rw [primary_succ]
  by_cases h1 : p.currentToken.type = .IDENTIFIER
  · rw [if_pos h1]
    exact Or.inr ⟨_, _, rfl, size_eat_le _ _⟩
  rw [if_neg h1]
  by_cases h2 : p.currentToken.type = .LPAREN
  · rw [if_pos h2]
    have hlt := size_eat_lt p .LPAREN h2 (by decide)
    have hE := (ih (size (p.eat .LPAREN)) (by omega)).2.2.2.2.2 (p.eat .LPAREN) n
      (Nat.le_refl _) (by omega)
    rcases hE with hE | ⟨node, q, hE, hq⟩
    · rw [hE]; exact Or.inl rfl
    · rw [hE]
      exact Or.inr ⟨_, _, rfl, by have := size_eat_le q .RPAREN; omega⟩
  rw [if_neg h2]
  by_cases h3 : p.currentToken.type = .NOT
  · rw [if_pos h3]
    have hlt := size_eat_lt p .NOT h3 (by decide)
    have hP := (ih (size (p.eat .NOT)) (by omega)).1 (p.eat .NOT) n
      (Nat.le_refl _) (by omega)
    rcases hP with hP | ⟨node, q, hP, hq⟩
    · rw [hP]; exact Or.inl rfl
    · rw [hP]
      cases node with
      | none => exact Or.inl rfl
      | some a => exact Or.inr ⟨_, _, rfl, by omega⟩
  rw [if_neg h3]
  exact Or.inr ⟨_, _, rfl, Nat.le_refl _⟩

theorem atFactorOp_type {p : Parser} (h : p.atFactorOp = true) :
    p.currentToken.type = .OPERATOR := by
  unfold atFactorOp at h
  simp only [Bool.and_eq_true, beq_iff_eq] at h
  exact h.1

theorem atTermOp_type {p : Parser} (h : p.atTermOp = true) :
    p.currentToken.type = .OPERATOR := by
  unfold atTermOp at h
  simp only [Bool.and_eq_true, beq_iff_eq] at h
  exact h.1

theorem runs_factorLoop (m : Nat) (ih : RunsBelow m) (node : Ptr) :
    Runs (factorLoop · node) 1 m := by
  intro p fuel hp hf
  obtain ⟨n, rfl⟩ : ∃ n, fuel = n + 1 := ⟨fuel - 1, by omega⟩
  show factorLoop (n + 1) node p = _ ∨ ∃ node' q, factorLoop (n + 1) node p = _ ∧ _
  rw [factorLoop_succ]
  by_cases h1 : p.atFactorOp = true
  · rw [if_pos h1]
    have hlt := size_eat_lt p .OPERATOR (atFactorOp_type h1) (by decide)
    have hP := (ih (size (p.eat .OPERATOR)) (by omega)).1 (p.eat .OPERATOR) n
      (Nat.le_refl _) (by omega)
    rcases hP with hP | ⟨right, q, hP, hq⟩
    · rw [hP]; exact Or.inl rfl
    · rw [hP]
      have hL := (ih (size q) (by omega)).2.1 (some (newNode p.currentToken node right)) q n
        (Nat.le_refl _) (by omega)
      rcases hL with hL | ⟨r, q2, hL, hq2⟩
      · exact Or.inl hL
      · exact Or.inr ⟨r, q2, hL, by omega⟩
  · rw [if_neg h1]
    exact Or.inr ⟨_, _, rfl, Nat.le_refl _⟩

theorem runs_factor (m : Nat) (ih : RunsBelow m) : Runs factor 2 m := by
  intro p fuel hp hf
  obtain ⟨n, rfl⟩ : ∃ n, fuel = n + 1 := ⟨fuel - 1, by omega⟩
  rw [factor_succ]
  rcases runs_primary m ih p n hp (by omega) with hP | ⟨node, q, hP, hq⟩
  · rw [hP]; exact Or.inl rfl
  · rw [hP]
    rcases runs_factorLoop m ih node q n (by omega) (by omega) with hL | ⟨r, q2, hL, hq2⟩
    · exact Or.inl hL
    · exact Or.inr ⟨r, q2, hL, by omega⟩

theorem runs_termLoop (m : Nat) (ih : RunsBelow m) (node : Ptr) :
    Runs (termLoop · node) 3 m := by
  intro p fuel hp hf
  obtain ⟨n, rfl⟩ : ∃ n, fuel = n + 1 := ⟨fuel - 1, by omega⟩
  show termLoop (n + 1) node p = _ ∨ ∃ node' q, termLoop (n + 1) node p = _ ∧ _
  rw [termLoop_succ]
  by_cases h1 : p.atTermOp = true
  · rw [if_pos h1]
    have hlt := size_eat_lt p .OPERATOR (atTermOp_type h1) (by decide)
    have hF := (ih (size (p.eat .OPERATOR)) (by omega)).2.2.1 (p.eat .OPERATOR) n
      (Nat.le_refl _) (by omega)
    rcases hF with hF | ⟨right, q, hF, hq⟩
    · rw [hF]; exact Or.inl rfl
    · rw [hF]
      have hL := (ih (size q) (by omega)).2.2.2.1 (some (newNode p.currentToken node right)) q n
        (Nat.le_refl _) (by omega)
      rcases hL with hL | ⟨r, q2, hL, hq2⟩
      · exact Or.inl hL
      · exact Or.inr ⟨r, q2, hL, by omega⟩
  · rw [if_neg h1]
    exact Or.inr ⟨_, _, rfl, Nat.le_refl _⟩

theorem runs_term (m : Nat) (ih : RunsBelow m) : Runs term 4 m := by
  intro p fuel hp hf
  obtain ⟨n, rfl⟩ : ∃ n, fuel = n + 1 := ⟨fuel - 1, by omega⟩
  rw [term_succ]
  rcases runs_factor m ih p n hp (by omega) with hF | ⟨node, q, hF, hq⟩
  · rw [hF]; exact Or.inl rfl
  · rw [hF]
    rcases runs_termLoop m ih node q n (by omega) (by omega) with hL | ⟨r, q2, hL, hq2⟩
    · exact Or.inl hL
    · exact Or.inr ⟨r, q2, hL, by omega⟩

theorem runs_expression (m : Nat) : Runs expression 5 m := by
  have all : ∀ m, RunsBelow m := by
    intro m
    induction m with
    | zero => intro k hk; omega
    | succ j ihj =>
      intro k hk
      have ihk : RunsBelow k := fun i hi => ihj i (by omega)
      refine ⟨runs_primary k ihk, runs_factorLoop k ihk, runs_factor k ihk,
        runs_termLoop k ihk, runs_term k ihk, ?_⟩
      intro p fuel hp hf
      obtain ⟨n, rfl⟩ : ∃ n, fuel = n + 1 := ⟨fuel - 1, by omega⟩
      rw [expression_succ]
      exact runs_term k ihk p n hp (by omega)
  exact (all (m + 1) m (Nat.lt_succ_self m)).2.2.2.2.2

/-- `Parser::parse` settles on every text with the fuel `parseFuel` gives it. -/
theorem parseWith_settled (expr : String) :
    Settled ((new expr).parseWith (parseFuel expr)) := by
  have hs := size_new expr
  rcases runs_expression expr.length (new expr) (parseFuel expr) hs
      (by unfold parseFuel; omega) with h | ⟨node, q, h, _⟩
  · unfold parseWith Settled; rw [h]; simp
  · unfold parseWith Settled; rw [h]; simp

/-- Any fuel at or above a settling amount gives the same result. -/
theorem parseWith_eq_of_settled {n : Nat} {p : Parser} {r : Except Fault (Ptr × Parser)}
    (h : p.parseWith n = r) (hr : Settled r) {m : Nat} (hm : Settled (p.parseWith m)) :
    p.parseWith m = r := by
  unfold parseWith at *
  subst h
  rcases Nat.le_total n m with hnm | hmn
  · exact expression_fuel_mono hnm hr
  · exact (expression_fuel_mono hmn hm).symm

end Parser

/-- Running `expression` with any settling fuel tells what `parse` returns. -/
theorem parse_of_expression {expr : String} {n : Nat} {node : Ptr} {q : Parser}
    (h : Parser.expression n (Parser.new expr) = .ok (node, q)) : parse expr = .ok node := by
  unfold parse
  rw [Parser.parseWith_eq_of_settled h (by simp [Parser.Settled]) (Parser.parseWith_settled expr)]

theorem parse_of_expression_fault {expr : String} {n : Nat}
    (h : Parser.expression n (Parser.new expr) = .error .nullDeref) :
    parse expr = .error .nullDeref := by
  unfold parse
  rw [Parser.parseWith_eq_of_settled h (by simp [Parser.Settled]) (Parser.parseWith_settled expr)]

/-- The model of `parse` never runs out of fuel: on every text it yields a
pointer (possibly null) or the null-dereference fault. -/
theorem parse_total (expr : String) :
    parse expr = .error .nullDeref ∨ ∃ node, parse expr = .ok node := by
  have h := Parser.parseWith_settled expr
  unfold parse
  cases hx : (Parser.new expr).parseWith (parseFuel expr) with
  | error e =>
    cases e with
    | nullDeref => exact Or.inl rfl
    | outOfFuel => exact absurd hx h
  | ok r => exact Or.inr ⟨r.1, rfl⟩

/-! ## Lexing of identifiers and single-character tokens -/

theorem isIdentifier_start {s : String} (h : IsIdentifier s) :
    ∃ c cs, s.data = c :: cs ∧ (isalpha c || c == '_') = true ∧
      ∀ a ∈ c :: cs, identChar a = true := by
  obtain ⟨hne, hall, hdig⟩ := h
  cases hd : s.data with
  | nil => exact absurd hd hne
  | cons c cs =>
    refine ⟨c, cs, rfl, ?_, by rw [← hd]; exact hall⟩
    have h1 : identChar c = true := hall c (by rw [hd]; simp)
    have h2 : isdigit c = false := hdig c (by rw [hd]; rfl)
    unfold identChar isalnum at h1
    unfold isdigit at h2
    rw [h2] at h1
    simpa using h1

theorem takeWhile_ident (l rest : List Char) (hl : ∀ a ∈ l, identChar a = true)
    (hr : EndsIdent rest) : (l ++ rest).takeWhile identChar = l := by
  rw [List.takeWhile_append_of_pos hl]
  cases rest with
  | nil => simp
  | cons c t =>
    have hc : identChar c = false := hr
    simp [List.takeWhile_cons, hc]

theorem dropWhile_ident (l rest : List Char) (hl : ∀ a ∈ l, identChar a = true)
    (hr : EndsIdent rest) : (l ++ rest).dropWhile identChar = rest := by
  rw [List.dropWhile_append_of_pos hl]
  cases rest with
  | nil => simp
  | cons c t =>
    have hc : identChar c = false := hr
    simp [List.dropWhile_cons, hc]

theorem start_facts {c : Char} (h : (isalpha c || c == '_') = true) :
    isspace c = false ∧ (c == '&' || c == '|' || c == '^') = false ∧ (c == '!') = false ∧
      (c == '(') = false ∧ (c == ')') = false := by
  have key : ∀ d : Char, (isalpha d || d == '_') = false → (c == d) = false := by
    intro d hd
    rw [beq_eq_false_iff_ne]
    intro hcd
    rw [hcd, hd] at h
    exact Bool.false_ne_true h
  refine ⟨?_, ?_, key _ (by decide), key _ (by decide), key _ (by decide)⟩
  · have hsp := key ' ' (by decide)
    unfold isspace
    rw [hsp]
    unfold isalpha at h
    simp only [Bool.or_eq_true, Bool.and_eq_true, decide_eq_true_eq, beq_iff_eq] at h
    simp only [Bool.false_or, Bool.and_eq_false_iff, decide_eq_false_iff_not]
    rcases h with (h | h) | h
    · omega
    · omega
    · subst h; decide
  · rw [key '&' (by decide), key '|' (by decide), key '^' (by decide)]; rfl

/-- An identifier followed by text that cannot extend it is read as one
`IDENTIFIER` token carrying the whole name. -/
theorem getNextToken_ident {s : String} (h : IsIdentifier s) {rest : List Char}
    (hr : EndsIdent rest) :
    getNextToken (s.data ++ rest) = (⟨.IDENTIFIER, s⟩, rest) := by
  obtain ⟨c, cs, hd, hstart, hall⟩ := isIdentifier_start h
  obtain ⟨f1, f2, f3, f4, f5⟩ := start_facts hstart
  have ht := takeWhile_ident (c :: cs) rest hall hr
  have hdr := dropWhile_ident (c :: cs) rest hall hr
  rw [hd, List.cons_append, getNextToken]
  rw [← List.cons_append, ht, hdr]
  simp only [f1, f2, f3, f4, f5, hstart, if_true, Bool.false_eq_true, if_false]
  rw [← hd]


/-! ## Running the parser on known tokens -/

namespace Parser

theorem new_of_data {expr : String} {l : List Char} (h : expr.data = l) :
    new expr = ⟨(getNextToken l).2, (getNextToken l).1⟩ := by
  unfold new; rw [h]

theorem eat_same (l : List Char) (t : MyTokenType) (v : String) :
    eat ⟨l, ⟨t, v⟩⟩ t = ⟨(getNextToken l).2, (getNextToken l).1⟩ := by
  unfold eat; rw [if_pos rfl]

theorem primary_identifier (fuel : Nat) (l : List Char) (v : String) :
    primary (fuel + 1) ⟨l, ⟨.IDENTIFIER, v⟩⟩ =
      .ok (some (Leaf v false), ⟨(getNextToken l).2, (getNextToken l).1⟩) := by
  rw [primary_succ, if_pos rfl, eat_same]; rfl

theorem primary_end (fuel : Nat) (l : List Char) (v : String) :
    primary (fuel + 1) ⟨l, ⟨.END, v⟩⟩ = .ok (none, ⟨l, ⟨.END, v⟩⟩) := by
  rw [primary_succ]; rfl

theorem primary_rparen (fuel : Nat) (l : List Char) (v : String) :
    primary (fuel + 1) ⟨l, ⟨.RPAREN, v⟩⟩ = .ok (none, ⟨l, ⟨.RPAREN, v⟩⟩) := by
  rw [primary_succ]; rfl

theorem primary_lparen (fuel : Nat) (l : List Char) (v : String) :
    primary (fuel + 1) ⟨l, ⟨.LPAREN, v⟩⟩ =
      match expression fuel ⟨(getNextToken l).2, (getNextToken l).1⟩ with
      | .error e => .error e
      | .ok (node, q) => .ok (node, q.eat .RPAREN) := by
  rw [primary_succ, if_neg (by simp), if_pos rfl, eat_same]

theorem primary_not (fuel : Nat) (l : List Char) (v : String) :
    primary (fuel + 1) ⟨l, ⟨.NOT, v⟩⟩ =
      match primary fuel ⟨(getNextToken l).2, (getNextToken l).1⟩ with
      | .error e => .error e
      | .ok (none, _) => .error .nullDeref
      | .ok (some node, q) => .ok (some (node.setHasNot true), q) := by
  rw [primary_succ, if_neg (by simp), if_neg (by simp), if_pos rfl, eat_same]

theorem factorLoop_stop (fuel : Nat) (node : Ptr) {p : Parser} (h : p.atFactorOp = false) :
    factorLoop (fuel + 1) node p = .ok (node, p) := by
  rw [factorLoop_succ, h]; rfl

theorem termLoop_stop (fuel : Nat) (node : Ptr) {p : Parser} (h : p.atTermOp = false) :
    termLoop (fuel + 1) node p = .ok (node, p) := by
  rw [termLoop_succ, h]; rfl

theorem factorLoop_go (fuel : Nat) (node : Ptr) {p : Parser} (h : p.atFactorOp = true) :
    factorLoop (fuel + 1) node p =
      match primary fuel (p.eat .OPERATOR) with
      | .error e => .error e
      | .ok (right, q) => factorLoop fuel (some (newNode p.currentToken node right)) q := by
  rw [factorLoop_succ, if_pos h]

theorem termLoop_go (fuel : Nat) (node : Ptr) {p : Parser} (h : p.atTermOp = true) :
    termLoop (fuel + 1) node p =
      match factor fuel (p.eat .OPERATOR) with
      | .error e => .error e
      | .ok (right, q) => termLoop fuel (some (newNode p.currentToken node right)) q := by
  rw [termLoop_succ, if_pos h]

theorem factorLoop_end (fuel : Nat) (node : Ptr) (l : List Char) (v : String) :
    factorLoop (fuel + 1) node ⟨l, ⟨.END, v⟩⟩ = .ok (node, ⟨l, ⟨.END, v⟩⟩) :=
  factorLoop_stop fuel node rfl

theorem factorLoop_rparen (fuel : Nat) (node : Ptr) (l : List Char) (v : String) :
    factorLoop (fuel + 1) node ⟨l, ⟨.RPAREN, v⟩⟩ = .ok (node, ⟨l, ⟨.RPAREN, v⟩⟩) :=
  factorLoop_stop fuel node rfl

theorem factorLoop_bar (fuel : Nat) (node : Ptr) (l : List Char) :
    factorLoop (fuel + 1) node ⟨l, ⟨.OPERATOR, "|"⟩⟩ = .ok (node, ⟨l, ⟨.OPERATOR, "|"⟩⟩) :=
  factorLoop_stop fuel node rfl

theorem factorLoop_amp (fuel : Nat) (node : Ptr) (l : List Char) :
    factorLoop (fuel + 1) node ⟨l, ⟨.OPERATOR, "&"⟩⟩ =
      match primary fuel ⟨(getNextToken l).2, (getNextToken l).1⟩ with
      | .error e => .error e
      | .ok (right, q) => factorLoop fuel (some (Gate "&" false [node, right])) q := by
  rw [factorLoop_go fuel node (p := ⟨l, ⟨.OPERATOR, "&"⟩⟩) rfl, eat_same]; rfl

theorem factorLoop_caret (fuel : Nat) (node : Ptr) (l : List Char) :
    factorLoop (fuel + 1) node ⟨l, ⟨.OPERATOR, "^"⟩⟩ =
      match primary fuel ⟨(getNextToken l).2, (getNextToken l).1⟩ with
      | .error e => .error e
      | .ok (right, q) => factorLoop fuel (some (Gate "^" false [node, right])) q := by
  rw [factorLoop_go fuel node (p := ⟨l, ⟨.OPERATOR, "^"⟩⟩) rfl, eat_same]; rfl

theorem termLoop_end (fuel : Nat) (node : Ptr) (l : List Char) (v : String) :
    termLoop (fuel + 1) node ⟨l, ⟨.END, v⟩⟩ = .ok (node, ⟨l, ⟨.END, v⟩⟩) :=
  termLoop_stop fuel node rfl

theorem termLoop_rparen (fuel : Nat) (node : Ptr) (l : List Char) (v : String) :
    termLoop (fuel + 1) node ⟨l, ⟨.RPAREN, v⟩⟩ = .ok (node, ⟨l, ⟨.RPAREN, v⟩⟩) :=
  termLoop_stop fuel node rfl

theorem termLoop_bar (fuel : Nat) (node : Ptr) (l : List Char) :
    termLoop (fuel + 1) node ⟨l, ⟨.OPERATOR, "|"⟩⟩ =
      match factor fuel ⟨(getNextToken l).2, (getNextToken l).1⟩ with
      | .error e => .error e
      | .ok (right, q) => termLoop fuel (some (Gate "|" false [node, right])) q := by
  rw [termLoop_go fuel node (p := ⟨l, ⟨.OPERATOR, "|"⟩⟩) rfl, eat_same]; rfl

theorem eat_rparen (l : List Char) (v : String) :
    eat ⟨l, ⟨.RPAREN, v⟩⟩ .RPAREN = ⟨(getNextToken l).2, (getNextToken l).1⟩ :=
  eat_same l .RPAREN v

theorem eat_rparen_end (l : List Char) (v : String) :
    eat ⟨l, ⟨.END, v⟩⟩ .RPAREN = ⟨l, ⟨.END, v⟩⟩ := rfl

end Parser

theorem getNextToken_nil : getNextToken [] = (⟨.END, ""⟩, []) := rfl

theorem getNextToken_space (rest : List Char) :
    getNextToken (' ' :: rest) = getNextToken rest := by
  rw [getNextToken]; rfl

theorem getNextToken_amp (rest : List Char) :
    getNextToken ('&' :: rest) = (⟨.OPERATOR, "&"⟩, rest) := by
  rw [getNextToken]; rfl

theorem getNextToken_bar (rest : List Char) :
    getNextToken ('|' :: rest) = (⟨.OPERATOR, "|"⟩, rest) := by
  rw [getNextToken]; rfl

theorem getNextToken_caret (rest : List Char) :
    getNextToken ('^' :: rest) = (⟨.OPERATOR, "^"⟩, rest) := by
  rw [getNextToken]; rfl

theorem getNextToken_bang (rest : List Char) :
    getNextToken ('!' :: rest) = (⟨.NOT, "!"⟩, rest) := by
  rw [getNextToken]; rfl

theorem getNextToken_lparen (rest : List Char) :
    getNextToken ('(' :: rest) = (⟨.LPAREN, ""⟩, rest) := by
  rw [getNextToken]; rfl

theorem getNextToken_rparen (rest : List Char) :
    getNextToken (')' :: rest) = (⟨.RPAREN, ""⟩, rest) := by
  rw [getNextToken]; rfl

/-- C8: a string that is non-empty, made only of ASCII letters, digits and
underscores and not starting with a digit parses to the single leaf carrying
the whole string, not negated. -/
theorem parse_identifier (X : String) (hX : IsIdentifier X) :
    parse X = .ok (some (Leaf X false)) := by
  have hl : getNextToken X.data = (⟨.IDENTIFIER, X⟩, []) := by
    have := getNextToken_ident hX (show EndsIdent [] from trivial)
    rwa [List.append_nil] at this
  apply parse_of_expression (n := 5) (q := ⟨[], ⟨.END, ""⟩⟩)
  rw [Parser.new_of_data rfl, hl]
  rw [Parser.expression_succ, Parser.term_succ, Parser.factor_succ,
    Parser.primary_identifier, getNextToken_nil]
  simp only [Parser.factorLoop_end, Parser.termLoop_end]

theorem parse_identifier_witness :
    IsIdentifier "x_1" ∧ parse "x_1" = .ok (some (Leaf "x_1" false)) :=
  ⟨by decide, parse_identifier "x_1" (by decide)⟩

theorem endsIdent_space (l : List Char) : EndsIdent (' ' :: l) := by
  show identChar ' ' = false; decide

/-- C1: for identifier names `A`, `B`, `C` the text `A | B & C` parses to the
`|` gate over the leaf `A` and the `&` gate of the leaves `B`, `C`, with no
negated flag set: `&` binds tighter than `|`. -/
theorem parse_or_and (A B C : String) (hA : IsIdentifier A) (hB : IsIdentifier B)
    (hC : IsIdentifier C) :
    parse (A ++ " | " ++ B ++ " & " ++ C) =
      .ok (some (Gate "|" false
        [some (Leaf A false), some (Gate "&" false [some (Leaf B false), some (Leaf C false)])])) := by
  have hd : (A ++ " | " ++ B ++ " & " ++ C).data =
      A.data ++ (' ' :: '|' :: ' ' :: (B.data ++ (' ' :: '&' :: ' ' :: (C.data ++ [])))) := by
    simp [String.data_append]
  apply parse_of_expression (n := 8) (q := ⟨[], ⟨.END, ""⟩⟩)
  rw [Parser.new_of_data hd, getNextToken_ident hA (endsIdent_space _)]
  simp only [Parser.expression_succ, Parser.term_succ, Parser.factor_succ,
    Parser.primary_identifier, getNextToken_space, getNextToken_bar, getNextToken_amp,
    getNextToken_ident hB (endsIdent_space _), getNextToken_ident hC (show EndsIdent [] from trivial),
    Parser.factorLoop_bar, Parser.factorLoop_amp, Parser.factorLoop_end, Parser.termLoop_bar,
    Parser.termLoop_end, getNextToken_nil]

theorem parse_or_and_witness :
    IsIdentifier "A" ∧ IsIdentifier "B" ∧ IsIdentifier "C" ∧
      parse ("A" ++ " | " ++ "B" ++ " & " ++ "C") =
        .ok (some (Gate "|" false
          [some (Leaf "A" false),
            some (Gate "&" false [some (Leaf "B" false), some (Leaf "C" false)])])) :=
  ⟨by decide, by decide, by decide,
    parse_or_and "A" "B" "C" (by decide) (by decide) (by decide)⟩

/-- C2: `&` and `^` share one precedence level and associate to the left:
for operators `o1`, `o2` among `&` and `^`, the text `A o1 B o2 C` parses to
the gate `o2` over the gate `o1` of `A`, `B` and the leaf `C`. -/
theorem parse_factor_left_assoc (A B C o1 o2 : String) (hA : IsIdentifier A)
    (hB : IsIdentifier B) (hC : IsIdentifier C) (h1 : o1 = "&" ∨ o1 = "^")
    (h2 : o2 = "&" ∨ o2 = "^") :
    parse (A ++ " " ++ o1 ++ " " ++ B ++ " " ++ o2 ++ " " ++ C) =
      .ok (some (Gate o2 false
        [some (Gate o1 false [some (Leaf A false), some (Leaf B false)]),
          some (Leaf C false)])) := by
  have hd : ∀ a b : Char, (A ++ " " ++ String.singleton a ++ " " ++ B ++ " " ++
      String.singleton b ++ " " ++ C).data =
      A.data ++ (' ' :: a :: ' ' :: (B.data ++ (' ' :: b :: ' ' :: (C.data ++ [])))) := by
    intro a b
    simp [String.data_append, String.singleton]
  have run : ∀ a b : Char, (a = '&' ∨ a = '^') → (b = '&' ∨ b = '^') →
      parse (A ++ " " ++ String.singleton a ++ " " ++ B ++ " " ++ String.singleton b ++ " " ++ C) =
        .ok (some (Gate (String.singleton b) false
          [some (Gate (String.singleton a) false [some (Leaf A false), some (Leaf B false)]),
            some (Leaf C false)])) := by
    intro a b ha hb
    apply parse_of_expression (n := 8) (q := ⟨[], ⟨.END, ""⟩⟩)
    rw [Parser.new_of_data (hd a b), getNextToken_ident hA (endsIdent_space _)]
    rcases ha with rfl | rfl <;> rcases hb with rfl | rfl <;>
      simp only [Parser.expression_succ, Parser.term_succ, Parser.factor_succ,
        Parser.primary_identifier, getNextToken_space, getNextToken_caret, getNextToken_amp,
        getNextToken_ident hB (endsIdent_space _), getNextToken_ident hC (show EndsIdent [] from trivial),
        Parser.factorLoop_caret, Parser.factorLoop_amp, Parser.factorLoop_end,
        Parser.termLoop_end, getNextToken_nil] <;> rfl
  rcases h1 with rfl | rfl <;> rcases h2 with rfl | rfl
  · exact run '&' '&' (Or.inl rfl) (Or.inl rfl)
  · exact run '&' '^' (Or.inl rfl) (Or.inr rfl)
  · exact run '^' '&' (Or.inr rfl) (Or.inl rfl)
  · exact run '^' '^' (Or.inr rfl) (Or.inr rfl)

theorem parse_factor_left_assoc_witness :
    IsIdentifier "A" ∧ IsIdentifier "B" ∧ IsIdentifier "C" ∧
      parse ("A" ++ " " ++ "&" ++ " " ++ "B" ++ " " ++ "^" ++ " " ++ "C") =
        .ok (some (Gate "^" false
          [some (Gate "&" false [some (Leaf "A" false), some (Leaf "B" false)]),
            some (Leaf "C" false)])) :=
  ⟨by decide, by decide, by decide,
    parse_factor_left_assoc "A" "B" "C" "&" "^" (by decide) (by decide) (by decide)
      (Or.inl rfl) (Or.inr rfl)⟩

/-! ## Chains of `&` -/

theorem andText_data (x : String) (ys : List String) :
    (andText x ys).data = x.data ++ andTail ys := by
  induction ys generalizing x with
  | nil => simp [andText, andTail]
  | cons y ys ih =>
    have h := ih (x ++ " & " ++ y)
    unfold andText at h ⊢
    rw [List.foldl_cons, h]
    simp [String.data_append, andTail]

theorem endsIdent_andTail (ys : List String) : EndsIdent (andTail ys) := by
  cases ys with
  | nil => trivial
  | cons y ys => exact endsIdent_space _

theorem factorLoop_andTail (ys : List String) (hys : ∀ y ∈ ys, IsIdentifier y) (n : Nat)
    (acc : ASTNode) :
    Parser.factorLoop (n + ys.length + 1) (some acc)
        ⟨(getNextToken (andTail ys)).2, (getNextToken (andTail ys)).1⟩ =
      .ok (some (ys.foldl (fun t y => Gate "&" false [some t, some (Leaf y false)]) acc),
        ⟨[], ⟨.END, ""⟩⟩) := by
  induction ys generalizing acc with
  | nil =>
    simp only [andTail, getNextToken_nil, Parser.factorLoop_end, List.foldl_nil]
  | cons y ys ih =>
    have hy : IsIdentifier y := hys y (by simp)
    have hfuel : n + (y :: ys).length + 1 = (n + ys.length + 1) + 1 := by
      simp only [List.length_cons]; omega
    rw [hfuel]
    simp only [andTail, getNextToken_space, getNextToken_amp, Parser.factorLoop_amp,
      getNextToken_ident hy (endsIdent_andTail ys), Parser.primary_identifier, List.foldl_cons]
    exact ih (fun z hz => hys z (by simp [hz])) _

/-- C3: for identifier names `x, y1, ..., yn` the text `x & y1 & ... & yn`
parses to the left-leaning fold `((x & y1) & ...) & yn`, every gate of which
has exactly the two operands `[accumulated tree, next leaf]`. -/
theorem parse_and_chain (x : String) (ys : List String) (hx : IsIdentifier x)
    (hys : ∀ y ∈ ys, IsIdentifier y) :
    parse (andText x ys) = .ok (some (andTree x ys)) := by
  apply parse_of_expression (n := ys.length + 4) (q := ⟨[], ⟨.END, ""⟩⟩)
  rw [Parser.new_of_data (andText_data x ys), getNextToken_ident hx (endsIdent_andTail ys)]
  rw [Parser.expression_succ, Parser.term_succ, Parser.factor_succ, Parser.primary_identifier]
  have h := factorLoop_andTail ys hys 0 (Leaf x false)
  rw [Nat.zero_add] at h
  simp only [h, Parser.termLoop_end]
  rfl

theorem parse_and_chain_witness :
    IsIdentifier "A" ∧ (∀ y ∈ ["B", "C"], IsIdentifier y) ∧
      parse (andText "A" ["B", "C"]) =
        .ok (some (Gate "&" false
          [some (Gate "&" false [some (Leaf "A" false), some (Leaf "B" false)]),
            some (Leaf "C" false)])) :=
  ⟨by decide, by decide, parse_and_chain "A" ["B", "C"] (by decide) (by decide)⟩

/-- The text built for the three names of the example is `A & B & C`. -/
theorem andText_example : andText "A" ["B", "C"] = "A & B & C" := by decide

/-! ## Negation and parentheses -/

theorem endsIdent_bar (l : List Char) : EndsIdent ('|' :: l) := by
  show identChar '|' = false; decide

theorem endsIdent_rparen (l : List Char) : EndsIdent (')' :: l) := by
  show identChar ')' = false; decide

theorem primary_bangs (X : String) (hX : IsIdentifier X) (k n : Nat) :
    Parser.primary (n + k + 1)
        ⟨(getNextToken (List.replicate k '!' ++ X.data)).2,
          (getNextToken (List.replicate k '!' ++ X.data)).1⟩ =
      .ok (some (Leaf X (decide (0 < k))), ⟨[], ⟨.END, ""⟩⟩) := by
  have hl : getNextToken X.data = (⟨.IDENTIFIER, X⟩, []) := by
    have := getNextToken_ident hX (show EndsIdent [] from trivial)
    rwa [List.append_nil] at this
  induction k with
  | zero =>
    simp only [List.replicate_zero, List.nil_append, hl, Parser.primary_identifier,
      getNextToken_nil]
    rfl
  | succ j ih =>
    have hfuel : n + (j + 1) + 1 = (n + j + 1) + 1 := by omega
    have hpos : decide (0 < j + 1) = true := decide_eq_true (Nat.succ_pos j)
    rw [hfuel, List.replicate_succ, List.cons_append, getNextToken_bang, Parser.primary_not, ih,
      hpos]
    rfl

/-- C6: for an identifier `X` and `k ≥ 1`, the text of `k` copies of `!`
followed by `X` parses to the leaf `X` with the negated flag set; a second
`!` overwrites the flag and does not cancel the first. -/
theorem parse_bangs (X : String) (hX : IsIdentifier X) (k : Nat) (hk : 1 ≤ k) :
    parse (String.mk (List.replicate k '!') ++ X) = .ok (some (Leaf X true)) := by
  apply parse_of_expression (n := k + 4) (q := ⟨[], ⟨.END, ""⟩⟩)
  have hd : (String.mk (List.replicate k '!') ++ X).data = List.replicate k '!' ++ X.data := rfl
  rw [Parser.new_of_data hd, Parser.expression_succ, Parser.term_succ, Parser.factor_succ]
  have h := primary_bangs X hX k 0
  rw [Nat.zero_add] at h
  have hpos : decide (0 < k) = true := decide_eq_true (by omega)
  simp only [h, hpos, Parser.factorLoop_end, Parser.termLoop_end]

theorem parse_bangs_witness :
    IsIdentifier "X" ∧ 1 ≤ 2 ∧ parse (String.mk (List.replicate 2 '!') ++ "X") =
      .ok (some (Leaf "X" true)) :=
  ⟨by decide, by decide, parse_bangs "X" (by decide) 2 (by decide)⟩

/-- C7: `!` marks the node of the primary that follows it and no other node:
`!A & B` is the unmarked `&` gate over the marked leaf `A` and the unmarked
leaf `B`, and `!(A|B)` is the marked `|` gate over two unmarked leaves. -/
theorem parse_not_scope (A B : String) (hA : IsIdentifier A) (hB : IsIdentifier B) :
    parse ("!" ++ A ++ " & " ++ B) =
        .ok (some (Gate "&" false [some (Leaf A true), some (Leaf B false)])) ∧
      parse ("!(" ++ A ++ "|" ++ B ++ ")") =
        .ok (some (Gate "|" true [some (Leaf A false), some (Leaf B false)])) := by
  constructor
  · have hd : ("!" ++ A ++ " & " ++ B).data =
        '!' :: (A.data ++ (' ' :: '&' :: ' ' :: (B.data ++ []))) := by
      simp [String.data_append]
    apply parse_of_expression (n := 8) (q := ⟨[], ⟨.END, ""⟩⟩)
    rw [Parser.new_of_data hd]
    simp only [Parser.expression_succ, Parser.term_succ, Parser.factor_succ, getNextToken_bang,
      Parser.primary_not, getNextToken_ident hA (endsIdent_space _), Parser.primary_identifier,
      getNextToken_space, getNextToken_amp, Parser.factorLoop_amp,
      getNextToken_ident hB (show EndsIdent [] from trivial), getNextToken_nil, Parser.factorLoop_end,
      Parser.termLoop_end]
    rfl
  · have hd : ("!(" ++ A ++ "|" ++ B ++ ")").data =
        '!' :: '(' :: (A.data ++ ('|' :: (B.data ++ [')']))) := by
      simp [String.data_append]
    apply parse_of_expression (n := 12) (q := ⟨[], ⟨.END, ""⟩⟩)
    rw [Parser.new_of_data hd]
    simp only [Parser.expression_succ, Parser.term_succ, Parser.factor_succ, getNextToken_bang,
      Parser.primary_not, getNextToken_lparen, Parser.primary_lparen,
      getNextToken_ident hA (endsIdent_bar _), Parser.primary_identifier, getNextToken_bar,
      Parser.factorLoop_bar, Parser.termLoop_bar, getNextToken_ident hB (endsIdent_rparen _),
      getNextToken_rparen, Parser.factorLoop_rparen, Parser.termLoop_rparen, Parser.eat_rparen,
      getNextToken_nil, Parser.factorLoop_end, Parser.termLoop_end]
    rfl

theorem parse_not_scope_witness :
    IsIdentifier "A" ∧ IsIdentifier "B" ∧
      parse ("!" ++ "A" ++ " & " ++ "B") =
        .ok (some (Gate "&" false [some (Leaf "A" true), some (Leaf "B" false)])) ∧
      parse ("!(" ++ "A" ++ "|" ++ "B" ++ ")") =
        .ok (some (Gate "|" true [some (Leaf "A" false), some (Leaf "B" false)])) :=
  ⟨by decide, by decide, parse_not_scope "A" "B" (by decide) (by decide)⟩

theorem parse_bar (A B : String) (hA : IsIdentifier A) (hB : IsIdentifier B) :
    parse (A ++ "|" ++ B) =
      .ok (some (Gate "|" false [some (Leaf A false), some (Leaf B false)])) := by
  have hd : (A ++ "|" ++ B).data = A.data ++ ('|' :: (B.data ++ [])) := by
    simp [String.data_append]
  apply parse_of_expression (n := 8) (q := ⟨[], ⟨.END, ""⟩⟩)
  rw [Parser.new_of_data hd]
  simp only [Parser.expression_succ, Parser.term_succ, Parser.factor_succ,
    getNextToken_ident hA (endsIdent_bar _), Parser.primary_identifier, getNextToken_bar,
    Parser.factorLoop_bar, Parser.termLoop_bar, getNextToken_ident hB (show EndsIdent [] from trivial),
    getNextToken_nil, Parser.factorLoop_end, Parser.termLoop_end]

theorem parse_paren_bar (A B : String) (hA : IsIdentifier A) (hB : IsIdentifier B) :
    parse ("(" ++ A ++ "|" ++ B ++ ")") =
      .ok (some (Gate "|" false [some (Leaf A false), some (Leaf B false)])) := by
  have hd : ("(" ++ A ++ "|" ++ B ++ ")").data = '(' :: (A.data ++ ('|' :: (B.data ++ [')']))) := by
    simp [String.data_append]
  apply parse_of_expression (n := 12) (q := ⟨[], ⟨.END, ""⟩⟩)
  rw [Parser.new_of_data hd]
  simp only [Parser.expression_succ, Parser.term_succ, Parser.factor_succ,
    getNextToken_lparen, Parser.primary_lparen,
    getNextToken_ident hA (endsIdent_bar _), Parser.primary_identifier, getNextToken_bar,
    Parser.factorLoop_bar, Parser.termLoop_bar, getNextToken_ident hB (endsIdent_rparen _),
    getNextToken_rparen, Parser.factorLoop_rparen, Parser.termLoop_rparen, Parser.eat_rparen,
    getNextToken_nil, Parser.factorLoop_end, Parser.termLoop_end]

/-- C9: parentheses are transparent to the tree: `(A|B)` and `A|B` parse to
the same result, operator, operands and flags included. -/
theorem parse_paren_transparent (A B : String) (hA : IsIdentifier A) (hB : IsIdentifier B) :
    parse ("(" ++ A ++ "|" ++ B ++ ")") = parse (A ++ "|" ++ B) := by
  rw [parse_paren_bar A B hA hB, parse_bar A B hA hB]

theorem parse_paren_transparent_witness :
    IsIdentifier "A" ∧ IsIdentifier "B" ∧
      parse ("(" ++ "A" ++ "|" ++ "B" ++ ")") = parse ("A" ++ "|" ++ "B") :=
  ⟨by decide, by decide, parse_paren_transparent "A" "B" (by decide) (by decide)⟩

/-! ## A closing parenthesis at the end of the text -/

theorem takeWhile_snoc_neg (f : Char → Bool) (l : List Char) (x : Char) (hx : f x = false) :
    (l ++ [x]).takeWhile f = l.takeWhile f := by
  induction l with
  | nil => simp [List.takeWhile_cons, hx]
  | cons a t ih =>
    rw [List.cons_append, List.takeWhile_cons, List.takeWhile_cons, ih]

theorem dropWhile_snoc_neg (f : Char → Bool) (l : List Char) (x : Char) (hx : f x = false) :
    (l ++ [x]).dropWhile f = l.dropWhile f ++ [x] := by
  induction l with
  | nil => simp [List.dropWhile_cons, hx]
  | cons a t ih =>
    rw [List.cons_append, List.dropWhile_cons, List.dropWhile_cons, ih]
    split <;> rfl

/-- Lexing with one more `)` at the end: the same token with the `)` left
unread, or `RPAREN` where the shorter text is at its end. -/
theorem getNextToken_snoc_rparen (l : List Char) :
    ((getNextToken (l ++ [')'])).1 = (getNextToken l).1 ∧
        (getNextToken (l ++ [')'])).2 = (getNextToken l).2 ++ [')']) ∨
      (getNextToken (l ++ [')']) = (⟨.RPAREN, ""⟩, []) ∧ getNextToken l = (⟨.END, ""⟩, [])) := by
  induction l with
  | nil => right; exact ⟨rfl, rfl⟩
  | cons c rest ih =>
    rw [List.cons_append, getNextToken, getNextToken]
    by_cases h1 : isspace c = true
    · rw [if_pos h1, if_pos h1]; exact ih
    rw [if_neg h1, if_neg h1]
    by_cases h2 : (c == '&' || c == '|' || c == '^') = true
    · rw [if_pos h2, if_pos h2]; exact Or.inl ⟨rfl, rfl⟩
    rw [if_neg h2, if_neg h2]
    by_cases h3 : (c == '!') = true
    · rw [if_pos h3, if_pos h3]; exact Or.inl ⟨rfl, rfl⟩
    rw [if_neg h3, if_neg h3]
    by_cases h4 : (c == '(') = true
    · rw [if_pos h4, if_pos h4]; exact Or.inl ⟨rfl, rfl⟩
    rw [if_neg h4, if_neg h4]
    by_cases h5 : (c == ')') = true
    · rw [if_pos h5, if_pos h5]; exact Or.inl ⟨rfl, rfl⟩
    rw [if_neg h5, if_neg h5]
    by_cases h6 : (isalpha c || c == '_') = true
    · rw [if_pos h6, if_pos h6]
      left
      have ht := takeWhile_snoc_neg identChar (c :: rest) ')' (by decide)
      have hd := dropWhile_snoc_neg identChar (c :: rest) ')' (by decide)
      rw [List.cons_append] at ht hd
      exact ⟨by rw [ht], by rw [hd]⟩
    · rw [if_neg h6, if_neg h6]; exact ih

namespace Parser

theorem primary_succ_andThen (fuel : Nat) (p : Parser) :
    primary (fuel + 1) p =
      if p.currentToken.type = .IDENTIFIER then
        .ok (some (ASTNode.new .IDENTIFIER p.currentToken.value), p.eat .IDENTIFIER)
      else if p.currentToken.type = .LPAREN then
        andThen (expression fuel (p.eat .LPAREN)) (fun node q => .ok (node, q.eat .RPAREN))
      else if p.currentToken.type = .NOT then
        andThen (primary fuel (p.eat .NOT)) markNot
      else .ok (none, p) := by
  rw [primary_succ]
  split_ifs
  · rfl
  · rfl
  · unfold andThen markNot
    cases primary fuel (p.eat .NOT) with
    | error e => rfl
    | ok r =>
      obtain ⟨node, q⟩ := r
      cases node <;> rfl
  · rfl

theorem factorLoop_succ_andThen (fuel : Nat) (node : Ptr) (p : Parser) :
    factorLoop (fuel + 1) node p =
      if p.atFactorOp then
        andThen (primary fuel (p.eat .OPERATOR)) (fun right q =>
          factorLoop fuel (some (newNode p.currentToken node right)) q)
      else .ok (node, p) := by
  rw [factorLoop_succ]; rfl

theorem factor_succ_andThen (fuel : Nat) (p : Parser) :
    factor (fuel + 1) p = andThen (primary fuel p) (fun node q => factorLoop fuel node q) := by
  rw [factor_succ]; rfl

theorem termLoop_succ_andThen (fuel : Nat) (node : Ptr) (p : Parser) :
    termLoop (fuel + 1) node p =
      if p.atTermOp then
        andThen (factor fuel (p.eat .OPERATOR)) (fun right q =>
          termLoop fuel (some (newNode p.currentToken node right)) q)
      else .ok (node, p) := by
  rw [termLoop_succ]; rfl

theorem term_succ_andThen (fuel : Nat) (p : Parser) :
    term (fuel + 1) p = andThen (factor fuel p) (fun node q => termLoop fuel node q) := by
  rw [term_succ]; rfl

theorem trails_refl (p : Parser) : Trails p p := Or.inr (Or.inr rfl)

theorem sameResult_refl (r : Except Fault (Ptr × Parser)) : SameResult r r := by
  cases r with
  | error e => exact rfl
  | ok x => exact ⟨rfl, trails_refl _⟩

theorem sameResult_andThen {r' r : Except Fault (Ptr × Parser)} (h : SameResult r' r)
    {f' f : Ptr → Parser → Except Fault (Ptr × Parser)}
    (hf : ∀ node q' q, Trails q' q → SameResult (f' node q') (f node q)) :
    SameResult (andThen r' f') (andThen r f) := by
  cases r' with
  | error e' =>
    cases r with
    | error e => exact h
    | ok x => exact h.elim
  | ok x' =>
    cases r with
    | error e => exact h.elim
    | ok x =>
      obtain ⟨n', q'⟩ := x'
      obtain ⟨n, q⟩ := x
      obtain ⟨hn, hq⟩ := h
      subst hn
      exact hf _ _ _ hq

theorem trails_eat {p' p : Parser} (h : Trails p' p) (t : MyTokenType) :
    Trails (p'.eat t) (p.eat t) := by
  rcases h with ⟨hl, ht⟩ | ⟨h', h0⟩ | h
  · unfold Parser.eat
    rw [ht]
    by_cases hty : p.currentToken.type = t
    · rw [if_pos hty, if_pos hty, hl]
      rcases getNextToken_snoc_rparen p.lexer with ⟨h1, h2⟩ | ⟨h1, h2⟩
      · exact Or.inl ⟨h2, h1⟩
      · rw [h1, h2]; exact Or.inr (Or.inl ⟨rfl, rfl⟩)
    · rw [if_neg hty, if_neg hty]; exact Or.inl ⟨hl, ht⟩
  · subst h' h0
    cases t <;> first | exact Or.inr (Or.inl ⟨rfl, rfl⟩) | exact Or.inr (Or.inr rfl)
  · subst h; exact trails_refl _

/-- What `Trails` says about the two current tokens. -/
theorem trails_token {p' p : Parser} (h : Trails p' p) :
    p'.currentToken = p.currentToken ∨
      (p' = ⟨[], ⟨.RPAREN, ""⟩⟩ ∧ p = ⟨[], ⟨.END, ""⟩⟩) := by
  rcases h with ⟨_, ht⟩ | h | h
  · exact Or.inl ht
  · exact Or.inr h
  · exact Or.inl (by rw [h])

end Parser

namespace Parser

theorem simulation (n : Nat) :
    (∀ p' p, Trails p' p → SameResult (primary n p') (primary n p)) ∧
    (∀ node p' p, Trails p' p → SameResult (factorLoop n node p') (factorLoop n node p)) ∧
    (∀ p' p, Trails p' p → SameResult (factor n p') (factor n p)) ∧
    (∀ node p' p, Trails p' p → SameResult (termLoop n node p') (termLoop n node p)) ∧
    (∀ p' p, Trails p' p → SameResult (term n p') (term n p)) ∧
    (∀ p' p, Trails p' p → SameResult (expression n p') (expression n p)) := by
  induction n with
  | zero =>
    refine ⟨?_, ?_, ?_, ?_, ?_, ?_⟩ <;> intros <;>
      simp [primary, factorLoop, factor, termLoop, term, expression, SameResult]
  | succ k ih =>
    obtain ⟨hP, hFL, hF, hTL, hT, hE⟩ := ih
    have stepP : ∀ p' p, Trails p' p →
        SameResult (primary (k + 1) p') (primary (k + 1) p) := by
      intro p' p h
      rcases trails_token h with ht | ⟨h', h0⟩
      · rw [primary_succ_andThen, primary_succ_andThen, ht]
        split_ifs
        · exact ⟨rfl, trails_eat h _⟩
        · exact sameResult_andThen (hE _ _ (trails_eat h _)) (fun node q' q hq => ⟨rfl, trails_eat hq _⟩)
        · refine sameResult_andThen (hP _ _ (trails_eat h _)) (fun node q' q hq => ?_)
          cases node with
          | none => exact rfl
          | some a => exact ⟨rfl, hq⟩
        · exact ⟨rfl, h⟩
      · subst h' h0
        exact ⟨rfl, h⟩
    have stepFL : ∀ node p' p, Trails p' p →
        SameResult (factorLoop (k + 1) node p') (factorLoop (k + 1) node p) := by
      intro node p' p h
      rcases trails_token h with ht | ⟨h', h0⟩
      · rw [factorLoop_succ_andThen, factorLoop_succ_andThen]
        have hc : p'.atFactorOp = p.atFactorOp := by unfold atFactorOp; rw [ht]
        rw [hc, ht]
        split_ifs
        · exact sameResult_andThen (hP _ _ (trails_eat h _)) (fun right q' q hq => hFL _ _ _ hq)
        · exact ⟨rfl, h⟩
      · subst h' h0
        exact ⟨rfl, h⟩
    have stepTL : ∀ node p' p, Trails p' p →
        SameResult (termLoop (k + 1) node p') (termLoop (k + 1) node p) := by
      intro node p' p h
      rcases trails_token h with ht | ⟨h', h0⟩
      · rw [termLoop_succ_andThen, termLoop_succ_andThen]
        have hc : p'.atTermOp = p.atTermOp := by unfold atTermOp; rw [ht]
        rw [hc, ht]
        split_ifs
        · exact sameResult_andThen (hF _ _ (trails_eat h _)) (fun right q' q hq => hTL _ _ _ hq)
        · exact ⟨rfl, h⟩
      · subst h' h0
        exact ⟨rfl, h⟩
    refine ⟨stepP, stepFL, ?_, stepTL, ?_, ?_⟩
    · intro p' p h
      rw [factor_succ_andThen, factor_succ_andThen]
      exact sameResult_andThen (hP _ _ h) (fun node q' q hq => hFL _ _ _ hq)
    · intro p' p h
      rw [term_succ_andThen, term_succ_andThen]
      exact sameResult_andThen (hF _ _ h) (fun node q' q hq => hTL _ _ _ hq)
    · intro p' p h
      rw [expression_succ, expression_succ]
      exact hT _ _ h

theorem trails_new (s : String) : Trails (new (s ++ ")")) (new s) := by
  have hd : (s ++ ")").data = s.data ++ [')'] := by simp [String.data_append]
  rw [new_of_data hd, new_of_data rfl]
  rcases getNextToken_snoc_rparen s.data with ⟨h1, h2⟩ | ⟨h1, h2⟩
  · exact Or.inl ⟨h2, h1⟩
  · rw [h1, h2]; exact Or.inr (Or.inl ⟨rfl, rfl⟩)

end Parser

/-- C10: a closing parenthesis appended to the text never changes what
`parse` returns, whatever the text. -/
theorem parse_trailing_rparen (s : String) : parse (s ++ ")") = parse s := by
  have hsim := (Parser.simulation (parseFuel (s ++ ")"))).2.2.2.2.2 _ _ (Parser.trails_new s)
  have hlen : parseFuel s ≤ parseFuel (s ++ ")") := by
    unfold parseFuel
    simp only [String.length_append]
    omega
  have hmono := Parser.expression_fuel_mono hlen (Parser.parseWith_settled s)
  rw [hmono] at hsim
  unfold parse Parser.parseWith
  cases h' : Parser.expression (parseFuel (s ++ ")")) (Parser.new (s ++ ")")) with
  | error e' =>
    cases h : Parser.expression (parseFuel s) (Parser.new s) with
    | error e =>
      rw [h', h] at hsim
      have he : e' = e := hsim
      rw [he]
    | ok x => rw [h', h] at hsim; exact hsim.elim
  | ok x' =>
    cases h : Parser.expression (parseFuel s) (Parser.new s) with
    | error e => rw [h', h] at hsim; exact hsim.elim
    | ok x =>
      rw [h', h] at hsim
      obtain ⟨n', q'⟩ := x'
      obtain ⟨n, q⟩ := x
      have hn : n' = n := hsim.1
      rw [hn]

/-! ## Null pointers -/

/-- C4: on the text `!` the parser reaches `node->hasNot = true` with the
null pointer that `primary` returned for the missing operand, so `parse`
does not return a tree or null there. -/
theorem parse_lone_not_faults : parse "!" = .error .nullDeref := by
  rfl

/-- C5: on the text `A & ` the parser returns the `&` gate whose second
operand is null; the structural dump skips the null child, and the schematic
view reads `children[1]->type` through it, so rendering faults. -/
theorem render_trailing_operator_faults :
    parse "A & " = .ok (some (Gate "&" false [some (Leaf "A" false), none])) ∧
      UGORenderer.printAST (some (Gate "&" false [some (Leaf "A" false), none])) 0 =
        "OPERATOR: &\n  IDENTIFIER: A\n" ∧
      UGORenderer.render (some (Gate "&" false [some (Leaf "A" false), none])) =
        .error .nullDeref ∧
      processExpression "A & " = .error .nullDeref := by
  refine ⟨by rfl, by decide, by rfl, by rfl⟩

/-! ## Missing operands and empty texts -/

/-- C11: for an identifier `A` the text `A & ` parses, without fault, to the
`&` gate whose first operand is the leaf `A` and whose second operand, the
missing right primary, is null. -/
theorem parse_trailing_operator (A : String) (hA : IsIdentifier A) :
    parse (A ++ " & ") = .ok (some (Gate "&" false [some (Leaf A false), none])) := by
  have hd : (A ++ " & ").data = A.data ++ (' ' :: '&' :: ' ' :: []) := by
    simp [String.data_append]
  apply parse_of_expression (n := 8) (q := ⟨[], ⟨.END, ""⟩⟩)
  rw [Parser.new_of_data hd]
  simp only [Parser.expression_succ, Parser.term_succ, Parser.factor_succ,
    getNextToken_ident hA (endsIdent_space _), Parser.primary_identifier, getNextToken_space,
    getNextToken_amp, Parser.factorLoop_amp, getNextToken_nil, Parser.primary_end,
    Parser.factorLoop_end, Parser.termLoop_end]

theorem parse_trailing_operator_witness :
    IsIdentifier "A" ∧
      parse ("A" ++ " & ") = .ok (some (Gate "&" false [some (Leaf "A" false), none])) :=
  ⟨by decide, parse_trailing_operator "A" (by decide)⟩

theorem getNextToken_no_token (l : List Char)
    (h : ∀ c ∈ l, isspace c = true ∨ startsToken c = false) :
    getNextToken l = (⟨.END, ""⟩, []) := by
  induction l with
  | nil => rfl
  | cons c rest ih =>
    have ihr := ih (fun a ha => h a (List.mem_cons_of_mem _ ha))
    rw [getNextToken]
    rcases h c (List.mem_cons_self _ _) with hs | hn
    · rw [if_pos hs]; exact ihr
    · unfold startsToken at hn
      simp only [Bool.or_eq_false_iff] at hn
      obtain ⟨⟨⟨⟨h1, h2⟩, h3⟩, h4⟩, h5⟩ := hn
      have h1' : (c == '&' || c == '|' || c == '^') = false := by
        simp only [Bool.or_eq_false_iff]; exact h1
      have h5' : (isalpha c || c == '_') = false := by
        simp only [Bool.or_eq_false_iff]; exact h5
      by_cases hs : isspace c = true
      · rw [if_pos hs]; exact ihr
      · rw [if_neg hs, h1', h2, h3, h4, h5']
        exact ihr

/-- C12: the empty text parses to null, and so does every text in which each
character is white space or a character that starts no token (no operator,
`!`, parenthesis, letter or underscore). -/
theorem parse_no_token (s : String)
    (h : ∀ c ∈ s.data, isspace c = true ∨ startsToken c = false) :
    parse "" = .ok none ∧ parse s = .ok none := by
  constructor
  · rfl
  · apply parse_of_expression (n := 4) (q := ⟨[], ⟨.END, ""⟩⟩)
    rw [Parser.new_of_data rfl, getNextToken_no_token s.data h]
    simp only [Parser.expression_succ, Parser.term_succ, Parser.factor_succ,
      Parser.primary_end, Parser.factorLoop_end, Parser.termLoop_end]

theorem parse_no_token_witness :
    (∀ c ∈ " \t$ 42#".data, isspace c = true ∨ startsToken c = false) ∧
      parse "" = .ok none ∧ parse " \t$ 42#" = .ok none :=
  ⟨by decide, parse_no_token " \t$ 42#" (by decide)⟩

/-! ## The token sequence -/

theorem getNextToken_end (l : List Char) (h : (getNextToken l).1.type = .END) :
    getNextToken l = (⟨.END, ""⟩, []) := by
  induction l with
  | nil => rfl
  | cons c rest ih =>
    rcases getNextToken_cost_cases c rest with hc | ⟨hne, _⟩
    · rw [hc] at h ⊢; exact ih h
    · exact absurd h hne

theorem lexerAfter_nil (i : Nat) : lexerAfter i [] = [] := by
  induction i with
  | zero => rfl
  | succ j ih => rw [lexerAfter, getNextToken_nil]; exact ih

theorem nthToken_succ (l : List Char) (i : Nat) :
    nthToken l (i + 1) = nthToken (getNextToken l).2 i := rfl

theorem nthToken_of_end (l : List Char) (h : (getNextToken l).1.type = .END) (i : Nat) :
    nthToken l i = ⟨.END, ""⟩ := by
  have hl := getNextToken_end l h
  cases i with
  | zero => show (getNextToken l).1 = _; rw [hl]
  | succ j =>
    rw [nthToken_succ, hl]
    show (getNextToken (lexerAfter j [])).1 = _
    rw [lexerAfter_nil]; rfl

theorem tokens_then_end (l : List Char) :
    ∃ k, k ≤ l.length ∧ (∀ i, i < k → (nthToken l i).type ≠ .END) ∧
      ∀ i, k ≤ i → nthToken l i = ⟨.END, ""⟩ := by
  generalize hn : l.length = n
  induction n using Nat.strong_induction_on generalizing l with
  | _ n ih =>
    subst hn
    by_cases hE : (getNextToken l).1.type = .END
    · exact ⟨0, Nat.zero_le _, fun i hi => absurd hi (Nat.not_lt_zero i),
        fun i _ => nthToken_of_end l hE i⟩
    · have hsz := getNextToken_size l
      rw [if_neg hE] at hsz
      obtain ⟨k, hk, hlt, hge⟩ := ih (getNextToken l).2.length (by omega) (getNextToken l).2 rfl
      refine ⟨k + 1, by omega, ?_, ?_⟩
      · intro i hi
        cases i with
        | zero => exact hE
        | succ j => rw [nthToken_succ]; exact hlt j (by omega)
      · intro i hi
        cases i with
        | zero => omega
        | succ j => rw [nthToken_succ]; exact hge j (by omega)

/-- C13: on every text, repeated calls of `getNextToken` return finitely many
tokens other than `END`, at most one per character, then `END`, and every
later call returns `END` again. -/
theorem getNextToken_end_terminal (expr : String) :
    ∃ k, k ≤ expr.length ∧ (∀ i, i < k → (nthToken expr.data i).type ≠ .END) ∧
      ∀ i, k ≤ i → nthToken expr.data i = ⟨.END, ""⟩ :=
  tokens_then_end expr.data

theorem unrecognized_facts {c : Char} (h : unrecognized c = true) :
    isspace c = false ∧ (c == '&' || c == '|' || c == '^') = false ∧ (c == '!') = false ∧
      (c == '(') = false ∧ (c == ')') = false ∧ (isalpha c || c == '_') = false ∧
      identChar c = false := by
  unfold unrecognized at h
  simp only [Bool.and_eq_true, Bool.not_eq_true', Bool.or_eq_false_iff] at h
  obtain ⟨⟨h1, ⟨⟨⟨⟨ha, hb⟩, hc⟩, hd⟩, he⟩, hf⟩, h3⟩ := h
  have hid := h3
  unfold identChar isalnum at h3
  simp only [Bool.or_eq_false_iff] at h3
  refine ⟨h1, ?_, hd, he, hf, ?_, hid⟩
  · simp only [Bool.or_eq_false_iff]; exact ⟨⟨ha, hb⟩, hc⟩
  · simp only [Bool.or_eq_false_iff]; exact ⟨h3.1.1, h3.2⟩

theorem blank_of_recognized {c : Char} (h : unrecognized c = false) : blank c = c := by
  unfold blank; rw [h]; rfl

theorem blank_of_unrecognized {c : Char} (h : unrecognized c = true) : blank c = ' ' := by
  unfold blank; rw [h]; rfl

theorem identChar_blank (c : Char) : identChar (blank c) = identChar c := by
  cases h : unrecognized c with
  | false => rw [blank_of_recognized h]
  | true => rw [blank_of_unrecognized h, (unrecognized_facts h).2.2.2.2.2.2]; rfl

theorem blank_of_identChar {c : Char} (h : identChar c = true) : blank c = c := by
  cases hu : unrecognized c with
  | false => exact blank_of_recognized hu
  | true => rw [(unrecognized_facts hu).2.2.2.2.2.2] at h; exact absurd h (by decide)

theorem takeWhile_blank (l : List Char) :
    (l.map blank).takeWhile identChar = l.takeWhile identChar := by
  induction l with
  | nil => rfl
  | cons a t ih =>
    rw [List.map_cons, List.takeWhile_cons, List.takeWhile_cons, identChar_blank]
    cases h : identChar a with
    | false => rfl
    | true => simp only [if_true]; rw [ih, blank_of_identChar h]

theorem dropWhile_blank (l : List Char) :
    (l.map blank).dropWhile identChar = (l.dropWhile identChar).map blank := by
  induction l with
  | nil => rfl
  | cons a t ih =>
    rw [List.map_cons, List.dropWhile_cons, List.dropWhile_cons, identChar_blank]
    cases h : identChar a with
    | false => rfl
    | true => simp only [if_true]; exact ih

/-- Blanking the unrecognized characters changes neither the next token nor,
up to blanking, the text left after it. -/
theorem getNextToken_blank (l : List Char) :
    getNextToken (l.map blank) = ((getNextToken l).1, (getNextToken l).2.map blank) := by
  induction l with
  | nil => rfl
  | cons c rest ih =>
    cases hu : unrecognized c with
    | true =>
      obtain ⟨f1, f2, f3, f4, f5, f6, _⟩ := unrecognized_facts hu
      rw [List.map_cons, blank_of_unrecognized hu, getNextToken_space, ih]
      have hc : getNextToken (c :: rest) = getNextToken rest := by
        rw [getNextToken]
        simp only [f1, f2, f3, f4, f5, f6, Bool.false_eq_true, if_false]
      rw [hc]
    | false =>
      rw [List.map_cons, blank_of_recognized hu, getNextToken, getNextToken]
      by_cases h1 : isspace c = true
      · rw [if_pos h1, if_pos h1]; exact ih
      rw [if_neg h1, if_neg h1]
      by_cases h2 : (c == '&' || c == '|' || c == '^') = true
      · rw [if_pos h2, if_pos h2]
      rw [if_neg h2, if_neg h2]
      by_cases h3 : (c == '!') = true
      · rw [if_pos h3, if_pos h3]
      rw [if_neg h3, if_neg h3]
      by_cases h4 : (c == '(') = true
      · rw [if_pos h4, if_pos h4]
      rw [if_neg h4, if_neg h4]
      by_cases h5 : (c == ')') = true
      · rw [if_pos h5, if_pos h5]
      rw [if_neg h5, if_neg h5]
      by_cases h6 : (isalpha c || c == '_') = true
      · rw [if_pos h6, if_pos h6]
        have ht := takeWhile_blank (c :: rest)
        have hd := dropWhile_blank (c :: rest)
        rw [List.map_cons, blank_of_recognized hu] at ht hd
        rw [ht, hd]
      · rw [if_neg h6, if_neg h6]; exact ih

theorem lexerAfter_blank (i : Nat) (l : List Char) :
    lexerAfter i (l.map blank) = (lexerAfter i l).map blank := by
  induction i generalizing l with
  | zero => rfl
  | succ j ih => rw [lexerAfter, lexerAfter, getNextToken_blank]; exact ih _

/-- C14: replacing every unrecognized character of a text by a space leaves
every token returned by the lexer, kind and text, unchanged. -/
theorem nthToken_blank (expr : String) (i : Nat) :
    nthToken (expr.data.map blank) i = nthToken expr.data i := by
  unfold nthToken
  rw [lexerAfter_blank, getNextToken_blank]

/-! ## The structural dump -/

mutual

theorem preorderLines_length (t : ASTNode) (d : Nat) :
    (preorderLines t d).length = nodeCount t := by
  match t with
  | .mk value type children hasNot =>
    rw [preorderLines, nodeCount, List.length_cons, preorderAll_length children (d + 1)]
    omega

theorem preorderAll_length (cs : List Ptr) (d : Nat) :
    (preorderAll cs d).length = nodeCountAll cs := by
  match cs with
  | [] => rfl
  | none :: rest => rw [preorderAll, nodeCountAll]; exact preorderAll_length rest d
  | some child :: rest =>
    rw [preorderAll, nodeCountAll, List.length_append, preorderLines_length child d,
      preorderAll_length rest d]

end

theorem concatLines_append (a b : List String) :
    concatLines (a ++ b) = concatLines a ++ concatLines b := by
  induction a with
  | nil => rfl
  | cons x t ih => rw [List.cons_append, concatLines, concatLines, ih, String.append_assoc]

theorem indent_eq (d : Nat) :
    UGORenderer.indent d = String.mk (List.replicate (2 * d) ' ') := by
  unfold UGORenderer.indent; rw [Nat.mul_comm]

mutual

theorem printASTAt_preorder (t : ASTNode) (d : Nat) (h : isTree t = true) :
    UGORenderer.printASTAt t d = concatLines (preorderLines t d) := by
  match t with
  | .mk value type children hasNot =>
    rw [preorderLines, concatLines]
    unfold dumpLine dumpLabel
    cases type with
    | IDENTIFIER =>
      rw [isTree] at h
      have hc : children = [] := by simpa using h
      subst hc
      rw [UGORenderer.printASTAt, indent_eq]
      simp only [ASTNode.type, ASTNode.value, ASTNode.hasNot, preorderAll, concatLines,
        String.append_empty, String.append_assoc]
    | OPERATOR =>
      rw [isTree] at h
      have hrec := printChildren_preorder children (d + 1) h
      rw [UGORenderer.printASTAt, indent_eq]
      simp only [ASTNode.type, ASTNode.value, hrec, String.append_assoc]
    | NULLID => simp [isTree] at h
    | NOT => simp [isTree] at h
    | LPAREN => simp [isTree] at h
    | RPAREN => simp [isTree] at h
    | END => simp [isTree] at h

theorem printChildren_preorder (cs : List Ptr) (d : Nat) (h : allTrees cs = true) :
    UGORenderer.printChildren cs d = concatLines (preorderAll cs d) := by
  match cs with
  | [] => rfl
  | none :: rest => rw [allTrees] at h; exact absurd h (by simp)
  | some child :: rest =>
    rw [allTrees, Bool.and_eq_true] at h
    rw [UGORenderer.printChildren, preorderAll, concatLines_append,
      printASTAt_preorder child d h.1, printChildren_preorder rest d h.2]

end

theorem concatLines_data_cons (line : String) (rest : List String) :
    (concatLines (line :: rest)).data = line.data ++ (concatLines rest).data := by
  rw [concatLines, String.data_append]

theorem dumpLine_breaks (node : ASTNode) (d : Nat) (h : node.value.data.count '\n' = 0) :
    (dumpLine node d).data.count '\n' = 1 := by
  unfold dumpLine dumpLabel
  have hrep : (List.replicate (2 * d) ' ').count '\n' = 0 := by
    rw [List.count_replicate]; rfl
  cases node.type <;> cases node.hasNot <;>
    simp only [String.data_append, List.count_append, hrep, h, if_true, if_false,
      Bool.false_eq_true] <;> rfl

mutual

theorem preorderLines_breaks (t : ASTNode) (d : Nat) (h : noLineBreak t = true) :
    (concatLines (preorderLines t d)).data.count '\n' = nodeCount t := by
  match t with
  | .mk value type children hasNot =>
    rw [noLineBreak, Bool.and_eq_true, beq_iff_eq] at h
    rw [preorderLines, concatLines_data_cons, List.count_append, nodeCount,
      dumpLine_breaks (.mk value type children hasNot) d h.1,
      preorderAll_breaks children (d + 1) h.2]

theorem preorderAll_breaks (cs : List Ptr) (d : Nat) (h : noLineBreakAll cs = true) :
    (concatLines (preorderAll cs d)).data.count '\n' = nodeCountAll cs := by
  match cs with
  | [] => rfl
  | none :: rest =>
    rw [noLineBreakAll] at h
    rw [preorderAll, nodeCountAll]
    exact preorderAll_breaks rest d h
  | some child :: rest =>
    rw [noLineBreakAll, Bool.and_eq_true] at h
    rw [preorderAll, nodeCountAll, concatLines_append, String.data_append, List.count_append,
      preorderLines_breaks child d h.1, preorderAll_breaks rest d h.2]

end

theorem parse_and (A B : String) (hA : IsIdentifier A) (hB : IsIdentifier B) :
    parse (A ++ " & " ++ B) =
      .ok (some (Gate "&" false [some (Leaf A false), some (Leaf B false)])) := by
  have hd : (A ++ " & " ++ B).data = A.data ++ (' ' :: '&' :: ' ' :: (B.data ++ [])) := by
    simp [String.data_append]
  apply parse_of_expression (n := 8) (q := ⟨[], ⟨.END, ""⟩⟩)
  rw [Parser.new_of_data hd]
  simp only [Parser.expression_succ, Parser.term_succ, Parser.factor_succ,
    getNextToken_ident hA (endsIdent_space _), Parser.primary_identifier, getNextToken_space,
    getNextToken_amp, Parser.factorLoop_amp,
    getNextToken_ident hB (show EndsIdent [] from trivial), getNextToken_nil,
    Parser.factorLoop_end, Parser.termLoop_end]

/-- C15: the structural dump of a tree without absent operands is the
pre-order listing of its nodes, one line per node, each line indented by two
spaces per level of depth; the listing has as many lines as the tree has
nodes, and when no name contains a line break the text has exactly that many
line ends.  For the tree of `A & B` it is the line of the gate, then one
level deeper the line of `A` and the line of `B`. -/
theorem printAST_preorder (t : ASTNode) (d : Nat) (h : isTree t = true) :
    UGORenderer.printAST (some t) d = concatLines (preorderLines t d) ∧
      (preorderLines t d).length = nodeCount t ∧
      (noLineBreak t = true →
        (UGORenderer.printAST (some t) d).data.count '\n' = nodeCount t) ∧
      ∀ A B : String, IsIdentifier A → IsIdentifier B →
        ∃ ast, parse (A ++ " & " ++ B) = .ok ast ∧
          UGORenderer.printAST ast 0 =
            "OPERATOR: &\n" ++ ("  IDENTIFIER: " ++ A ++ "\n") ++ ("  IDENTIFIER: " ++ B ++ "\n") := by
  have hp : UGORenderer.printAST (some t) d = concatLines (preorderLines t d) :=
    printASTAt_preorder t d h
  refine ⟨hp, preorderLines_length t d, fun hb => ?_, fun A B hA hB => ?_⟩
  · rw [hp]; exact preorderLines_breaks t d hb
  · refine ⟨_, parse_and A B hA hB, ?_⟩
    simp only [UGORenderer.printAST, Gate, Leaf, UGORenderer.printASTAt,
      UGORenderer.printChildren, UGORenderer.indent]
    simp only [String.append_assoc, String.append_empty]
    rfl

theorem printAST_preorder_witness :
    isTree (Gate "&" false [some (Leaf "A" false), some (Leaf "B" true)]) = true ∧
      UGORenderer.printAST (some (Gate "&" false [some (Leaf "A" false), some (Leaf "B" true)])) 0 =
        concatLines
          (preorderLines (Gate "&" false [some (Leaf "A" false), some (Leaf "B" true)]) 0) ∧
      (preorderLines (Gate "&" false [some (Leaf "A" false), some (Leaf "B" true)]) 0).length =
        nodeCount (Gate "&" false [some (Leaf "A" false), some (Leaf "B" true)]) :=
  ⟨rfl,
    (printAST_preorder (Gate "&" false [some (Leaf "A" false), some (Leaf "B" true)]) 0 rfl).1,
    (printAST_preorder (Gate "&" false [some (Leaf "A" false), some (Leaf "B" true)]) 0 rfl).2.1⟩

/-- C16, as stated, fails: the line of the negated leaf `A` is not the line
of the plain leaf `A` with a marker put in front of the name. -/
theorem printAST_marker_not_before_name :
    ¬ ∃ pre marker post : String, marker ≠ "" ∧
      UGORenderer.printAST (some (Leaf "A" false)) 0 = pre ++ "A" ++ post ∧
      UGORenderer.printAST (some (Leaf "A" true)) 0 = pre ++ marker ++ "A" ++ post := by
  rintro ⟨pre, marker, post, _, hplain, hneg⟩
  have e1 : UGORenderer.printAST (some (Leaf "A" false)) 0 = "IDENTIFIER: A\n" := by decide
  have e2 : UGORenderer.printAST (some (Leaf "A" true)) 0 = "IDENTIFIER: A (NOT)\n" := by decide
  rw [e1] at hplain
  rw [e2] at hneg
  have d1 : ("IDENTIFIER: A\n" : String).data = pre.data ++ ['A'] ++ post.data :=
    congrArg String.data hplain
  have d2 : ("IDENTIFIER: A (NOT)\n" : String).data =
      pre.data ++ marker.data ++ ['A'] ++ post.data := congrArg String.data hneg
  have h1 := congrArg List.reverse d1
  have h2 := congrArg List.reverse d2
  rw [List.reverse_append, List.reverse_append] at h1
  rw [List.reverse_append, List.reverse_append, List.reverse_append] at h2
  have l1 : ("IDENTIFIER: A\n" : String).data.reverse =
      '\n' :: 'A' :: " :REIFITNEDI".data := by decide
  have l2 : ("IDENTIFIER: A (NOT)\n" : String).data.reverse =
      '\n' :: ')' :: "TON( A :REIFITNEDI".data := by decide
  rw [l1] at h1
  rw [l2] at h2
  generalize post.data.reverse = r at h1 h2
  cases r with
  | nil =>
    have := (List.cons.inj h1).1
    exact absurd this (by decide)
  | cons x r1 =>
    cases r1 with
    | nil =>
      have := (List.cons.inj (List.cons.inj h2).2).1
      exact absurd this (by decide)
    | cons y r2 =>
      have hy1 : 'A' = y := (List.cons.inj (List.cons.inj h1).2).1
      have hy2 : ')' = y := (List.cons.inj (List.cons.inj h2).2).1
      rw [← hy1] at hy2
      exact absurd hy2 (by decide)

/-- C16, amended: in the structural dump the line of a negated leaf is the
name followed by the marker ` (NOT)`, and the line of a plain leaf is the name
with no marker. -/
theorem printAST_leaf (name : String) (d : Nat) :
    UGORenderer.printAST (some (Leaf name true)) d =
        UGORenderer.indent d ++ "IDENTIFIER: " ++ name ++ " (NOT)" ++ "\n" ∧
      UGORenderer.printAST (some (Leaf name false)) d =
        UGORenderer.indent d ++ "IDENTIFIER: " ++ name ++ "\n" := by
  constructor <;>
    simp [UGORenderer.printAST, Leaf, UGORenderer.printASTAt, String.append_assoc]

/-! ## The schematic view -/

/-- C17: the box drawn for a gate is not of one width.  For the trees of
`A & B`, `A | B` and `A ^ B` the first three lines of the schematic view, the
box, are 18, then 17 (`AND`, `XOR`) or 16 (`OR`), then 18 characters wide. -/
theorem render_box_widths :
    parse "A & B" = .ok (some (Gate "&" false [some (Leaf "A" false), some (Leaf "B" false)])) ∧
      parse "A | B" = .ok (some (Gate "|" false [some (Leaf "A" false), some (Leaf "B" false)])) ∧
      parse "A ^ B" = .ok (some (Gate "^" false [some (Leaf "A" false), some (Leaf "B" false)])) ∧
      (UGORenderer.renderNode
          (some (Gate "&" false [some (Leaf "A" false), some (Leaf "B" false)])) 0).map
        (fun s => (lineWidths s).take 3) = .ok [18, 17, 18] ∧
      (UGORenderer.renderNode
          (some (Gate "|" false [some (Leaf "A" false), some (Leaf "B" false)])) 0).map
        (fun s => (lineWidths s).take 3) = .ok [18, 16, 18] ∧
      (UGORenderer.renderNode
          (some (Gate "^" false [some (Leaf "A" false), some (Leaf "B" false)])) 0).map
        (fun s => (lineWidths s).take 3) = .ok [18, 17, 18] ∧
      UGORenderer.renderNode
          (some (Gate "|" false [some (Leaf "A" false), some (Leaf "B" false)])) 0 =
        .ok ("+----------------+\n|      OR      |\n+----------------+\n" ++
          "   вход 1: A\n   вход 2: B\n") := by
  refine ⟨by rfl, by rfl, by rfl, by rfl, by rfl, by rfl, by rfl⟩

/-! ## Trees returned by the parser are well formed -/

theorem isdigit_of_start {c : Char} (h : (isalpha c || c == '_') = true) :
    isdigit c = false := by
  unfold isdigit
  unfold isalpha at h
  simp only [Bool.or_eq_true, Bool.and_eq_true, decide_eq_true_eq, beq_iff_eq] at h
  simp only [Bool.and_eq_false_iff, decide_eq_false_iff_not]
  rcases h with (h | h) | h
  · omega
  · omega
  · subst h; decide

theorem isIdentifier_takeWhile (c : Char) (rest : List Char)
    (h : (isalpha c || c == '_') = true) :
    IsIdentifier (String.mk ((c :: rest).takeWhile identChar)) := by
  have hc := identChar_of_start h
  have ht : (c :: rest).takeWhile identChar = c :: rest.takeWhile identChar := by
    rw [List.takeWhile_cons, hc]; rfl
  refine ⟨?_, ?_, ?_⟩
  · show (c :: rest).takeWhile identChar ≠ []
    rw [ht]; exact List.cons_ne_nil _ _
  · intro a ha
    exact (List.mem_takeWhile_imp (show a ∈ (c :: rest).takeWhile identChar from ha))
  · intro a ha
    have : ((c :: rest).takeWhile identChar).head? = some a := ha
    rw [ht] at this
    have hca : c = a := by simpa using this
    rw [← hca]; exact isdigit_of_start h

namespace Parser

theorem tokenOk_getNextToken (l : List Char) : TokenOk (getNextToken l).1 := by
  induction l with
  | nil => intro h; exact absurd h (by decide)
  | cons c rest ih =>
    rw [getNextToken]
    by_cases h1 : isspace c = true
    · rw [if_pos h1]; exact ih
    rw [if_neg h1]
    by_cases h2 : (c == '&' || c == '|' || c == '^') = true
    · rw [if_pos h2]; intro h; exact absurd h (by simp)
    rw [if_neg h2]
    by_cases h3 : (c == '!') = true
    · rw [if_pos h3]; intro h; exact absurd h (by simp)
    rw [if_neg h3]
    by_cases h4 : (c == '(') = true
    · rw [if_pos h4]; intro h; exact absurd h (by simp)
    rw [if_neg h4]
    by_cases h5 : (c == ')') = true
    · rw [if_pos h5]; intro h; exact absurd h (by simp)
    rw [if_neg h5]
    by_cases h6 : (isalpha c || c == '_') = true
    · rw [if_pos h6]; intro _; exact isIdentifier_takeWhile c rest h6
    · rw [if_neg h6]; exact ih

theorem tokenOk_eat {p : Parser} (h : TokenOk p.currentToken) (t : MyTokenType) :
    TokenOk (p.eat t).currentToken := by
  unfold eat
  split
  · exact tokenOk_getNextToken p.lexer
  · exact h

theorem ptrOk_none : PtrOk none := by
  intro t h; exact absurd h (by simp)

theorem wellFormed_setHasNot (t : ASTNode) (b : Bool) :
    wellFormed (t.setHasNot b) = wellFormed t := by
  match t with
  | .mk value type children hasNot =>
    rw [ASTNode.setHasNot]
    cases type <;> simp [wellFormed]

theorem wellFormedAll_of_ptrOk {node : Ptr} (h : PtrOk node) :
    wellFormedAll [node] = true := by
  cases node with
  | none => rfl
  | some t => rw [wellFormedAll, h t rfl]; rfl

theorem ptrOk_newNode (op : Token) (node right : Ptr)
    (hop : op.value = "&" ∨ op.value = "|" ∨ op.value = "^")
    (hn : PtrOk node) (hr : PtrOk right) : PtrOk (some (newNode op node right)) := by
  intro t ht
  have : t = newNode op node right := (Option.some.inj ht).symm
  subst this
  have hops : (op.value == "&" || op.value == "|" || op.value == "^") = true := by
    rcases hop with h | h | h <;> rw [h] <;> rfl
  have hall : wellFormedAll [node, right] = true := by
    cases node with
    | none => rw [wellFormedAll]; exact wellFormedAll_of_ptrOk hr
    | some a => rw [wellFormedAll, hn a rfl, wellFormedAll_of_ptrOk hr]; rfl
  show wellFormed (ASTNode.mk op.value .OPERATOR [node, right] false) = true
  rw [wellFormed, hops, hall]; rfl

theorem resultOk_andThen {r : Except Fault (Ptr × Parser)} (h : ResultOk r)
    {f : Ptr → Parser → Except Fault (Ptr × Parser)}
    (hf : ∀ node q, PtrOk node → TokenOk q.currentToken → ResultOk (f node q)) :
    ResultOk (andThen r f) := by
  cases r with
  | error e => intro node q hq; exact absurd hq (by simp [andThen])
  | ok x =>
    obtain ⟨n, q⟩ := x
    obtain ⟨h1, h2⟩ := h n q rfl
    exact hf n q h1 h2

theorem resultOk_ok {node : Ptr} {q : Parser} (h1 : PtrOk node)
    (h2 : TokenOk q.currentToken) : ResultOk (.ok (node, q)) := by
  intro n q' h
  have := Except.ok.inj h
  rw [Prod.mk.injEq] at this
  rw [← this.1, ← this.2]; exact ⟨h1, h2⟩

theorem atFactorOp_value {p : Parser} (h : p.atFactorOp = true) :
    p.currentToken.value = "&" ∨ p.currentToken.value = "|" ∨ p.currentToken.value = "^" := by
  unfold atFactorOp at h
  simp only [Bool.and_eq_true, Bool.or_eq_true, beq_iff_eq] at h
  rcases h.2 with h | h
  · exact Or.inl h
  · exact Or.inr (Or.inr h)

theorem atTermOp_value {p : Parser} (h : p.atTermOp = true) :
    p.currentToken.value = "&" ∨ p.currentToken.value = "|" ∨ p.currentToken.value = "^" := by
  unfold atTermOp at h
  simp only [Bool.and_eq_true, beq_iff_eq] at h
  exact Or.inr (Or.inl h.2)

theorem resultOk_all (n : Nat) :
    (∀ p, TokenOk p.currentToken → ResultOk (primary n p)) ∧
    (∀ node p, PtrOk node → TokenOk p.currentToken → ResultOk (factorLoop n node p)) ∧
    (∀ p, TokenOk p.currentToken → ResultOk (factor n p)) ∧
    (∀ node p, PtrOk node → TokenOk p.currentToken → ResultOk (termLoop n node p)) ∧
    (∀ p, TokenOk p.currentToken → ResultOk (term n p)) ∧
    (∀ p, TokenOk p.currentToken → ResultOk (expression n p)) := by
  induction n with
  | zero =>
    refine ⟨?_, ?_, ?_, ?_, ?_, ?_⟩ <;> intros <;> intro node q h <;>
      simp [primary, factorLoop, factor, termLoop, term, expression] at h
  | succ k ih =>
    obtain ⟨hP, hFL, hF, hTL, hT, hE⟩ := ih
    have stepP : ∀ p, TokenOk p.currentToken → ResultOk (primary (k + 1) p) := by
      intro p hp
      rw [primary_succ_andThen]
      split_ifs with h1 h2 h3
      · refine resultOk_ok ?_ (tokenOk_eat hp _)
        intro t ht
        have : t = ASTNode.new .IDENTIFIER p.currentToken.value := (Option.some.inj ht).symm
        subst this
        show wellFormed (ASTNode.mk p.currentToken.value .IDENTIFIER [] false) = true
        rw [wellFormed, decide_eq_true (hp h1)]; rfl
      · exact resultOk_andThen (hE _ (tokenOk_eat hp _))
          (fun node q hn hq => resultOk_ok hn (tokenOk_eat hq _))
      · refine resultOk_andThen (hP _ (tokenOk_eat hp _)) (fun node q hn hq => ?_)
        cases node with
        | none => intro n q' h; exact absurd h (by simp [markNot])
        | some a =>
          refine resultOk_ok ?_ hq
          intro t ht
          have : t = a.setHasNot true := (Option.some.inj ht).symm
          rw [this, wellFormed_setHasNot]; exact hn a rfl
      · exact resultOk_ok ptrOk_none hp
    have stepFL : ∀ node p, PtrOk node → TokenOk p.currentToken →
        ResultOk (factorLoop (k + 1) node p) := by
      intro node p hn hp
      rw [factorLoop_succ_andThen]
      split_ifs with h1
      · exact resultOk_andThen (hP _ (tokenOk_eat hp _)) (fun right q hr hq =>
          hFL _ _ (ptrOk_newNode _ _ _ (atFactorOp_value h1) hn hr) hq)
      · exact resultOk_ok hn hp
    have stepTL : ∀ node p, PtrOk node → TokenOk p.currentToken →
        ResultOk (termLoop (k + 1) node p) := by
      intro node p hn hp
      rw [termLoop_succ_andThen]
      split_ifs with h1
      · exact resultOk_andThen (hF _ (tokenOk_eat hp _)) (fun right q hr hq =>
          hTL _ _ (ptrOk_newNode _ _ _ (atTermOp_value h1) hn hr) hq)
      · exact resultOk_ok hn hp
    refine ⟨stepP, stepFL, ?_, stepTL, ?_, ?_⟩
    · intro p hp
      rw [factor_succ_andThen]
      exact resultOk_andThen (hP _ hp) (fun node q hn hq => hFL _ _ hn hq)
    · intro p hp
      rw [term_succ_andThen]
      exact resultOk_andThen (hF _ hp) (fun node q hn hq => hTL _ _ hn hq)
    · intro p hp
      rw [expression_succ]
      exact hT _ hp

end Parser

/-- C18: every tree that `parse` returns is well formed: each gate has an
operator among `&`, `|`, `^` and exactly two operand entries, and each leaf
has a name that is non-empty, starts with a letter or underscore and is made
of letters, digits and underscores. -/
theorem parse_wellFormed (expr : String) (t : ASTNode) (h : parse expr = .ok (some t)) :
    wellFormed t = true := by
  unfold parse at h
  have hnew : Parser.TokenOk (Parser.new expr).currentToken :=
    Parser.tokenOk_getNextToken expr.data
  have hres := (Parser.resultOk_all (parseFuel expr)).2.2.2.2.2 _ hnew
  unfold Parser.parseWith at h
  cases hx : Parser.expression (parseFuel expr) (Parser.new expr) with
  | error e => rw [hx] at h; exact absurd h (by simp)
  | ok x =>
    obtain ⟨node, q⟩ := x
    rw [hx] at h
    have hn : node = some t := by simpa using h
    exact (hres node q hx).1 t hn

theorem parse_wellFormed_witness :
    parse "!(A|B) & C ^ !D" =
        .ok (some (Gate "^" false
          [some (Gate "&" false
            [some (Gate "|" true [some (Leaf "A" false), some (Leaf "B" false)]),
              some (Leaf "C" false)]),
            some (Leaf "D" true)])) ∧
      wellFormed (Gate "^" false
          [some (Gate "&" false
            [some (Gate "|" true [some (Leaf "A" false), some (Leaf "B" false)]),
              some (Leaf "C" false)]),
            some (Leaf "D" true)]) = true :=
  ⟨rfl, parse_wellFormed "!(A|B) & C ^ !D" _ rfl⟩

/-! ## The renderers do not read the flag of a gate -/

theorem clearGateNot_type (t : ASTNode) : (clearGateNot t).type = t.type := by
  match t with
  | .mk value type children hasNot => rw [clearGateNot]; rfl

theorem clearGateNot_value (t : ASTNode) : (clearGateNot t).value = t.value := by
  match t with
  | .mk value type children hasNot => rw [clearGateNot]; rfl

theorem clearGateNot_hasNot (t : ASTNode) (h : t.type = .IDENTIFIER) :
    (clearGateNot t).hasNot = t.hasNot := by
  match t with
  | .mk value type children hasNot =>
    have ht : type = .IDENTIFIER := h
    subst ht
    rw [clearGateNot]; rfl

mutual

theorem renderNodeAt_clearGateNot (t : ASTNode) (d : Nat) :
    UGORenderer.renderNodeAt (clearGateNot t) d = UGORenderer.renderNodeAt t d := by
  match t with
  | .mk value type children hasNot =>
    rw [clearGateNot]
    cases type with
    | OPERATOR =>
      rw [UGORenderer.renderNodeAt, UGORenderer.renderNodeAt,
        renderInputs_clearGateNot children 0 d]
    | IDENTIFIER => rw [UGORenderer.renderNodeAt, UGORenderer.renderNodeAt]; rfl
    | NULLID => simp [UGORenderer.renderNodeAt]
    | NOT => simp [UGORenderer.renderNodeAt]
    | LPAREN => simp [UGORenderer.renderNodeAt]
    | RPAREN => simp [UGORenderer.renderNodeAt]
    | END => simp [UGORenderer.renderNodeAt]

theorem renderInputs_clearGateNot (cs : List Ptr) (i d : Nat) :
    UGORenderer.renderInputs (clearGateNotAll cs) i d = UGORenderer.renderInputs cs i d := by
  match cs with
  | [] => rfl
  | none :: rest => rw [clearGateNotAll, UGORenderer.renderInputs, UGORenderer.renderInputs]
  | some child :: rest =>
    rw [clearGateNotAll, UGORenderer.renderInputs, UGORenderer.renderInputs,
      renderInputs_clearGateNot rest (i + 1) d, renderNodeAt_clearGateNot child (d + 3),
      clearGateNot_type, clearGateNot_value]
    by_cases hty : child.type = .IDENTIFIER
    · rw [clearGateNot_hasNot child hty]
    · rw [if_neg hty, if_neg hty]

end

mutual

theorem printASTAt_clearGateNot (t : ASTNode) (d : Nat) :
    UGORenderer.printASTAt (clearGateNot t) d = UGORenderer.printASTAt t d := by
  match t with
  | .mk value type children hasNot =>
    rw [clearGateNot]
    cases type with
    | OPERATOR =>
      rw [UGORenderer.printASTAt, UGORenderer.printASTAt,
        printChildren_clearGateNot children (d + 1)]
    | IDENTIFIER => rw [UGORenderer.printASTAt, UGORenderer.printASTAt]; rfl
    | NULLID => simp [UGORenderer.printASTAt]
    | NOT => simp [UGORenderer.printASTAt]
    | LPAREN => simp [UGORenderer.printASTAt]
    | RPAREN => simp [UGORenderer.printASTAt]
    | END => simp [UGORenderer.printASTAt]

theorem printChildren_clearGateNot (cs : List Ptr) (d : Nat) :
    UGORenderer.printChildren (clearGateNotAll cs) d = UGORenderer.printChildren cs d := by
  match cs with
  | [] => rfl
  | none :: rest =>
    rw [clearGateNotAll, UGORenderer.printChildren, UGORenderer.printChildren]
    exact printChildren_clearGateNot rest d
  | some child :: rest =>
    rw [clearGateNotAll, UGORenderer.printChildren, UGORenderer.printChildren,
      printASTAt_clearGateNot child d, printChildren_clearGateNot rest d]

end

theorem parse_not_paren_bar (A B : String) (hA : IsIdentifier A) (hB : IsIdentifier B) :
    parse ("!(" ++ A ++ "|" ++ B ++ ")") =
      .ok (some (Gate "|" true [some (Leaf A false), some (Leaf B false)])) := by
  have hd : ("!(" ++ A ++ "|" ++ B ++ ")").data =
      '!' :: '(' :: (A.data ++ ('|' :: (B.data ++ [')']))) := by
    simp [String.data_append]
  apply parse_of_expression (n := 12) (q := ⟨[], ⟨.END, ""⟩⟩)
  rw [Parser.new_of_data hd]
  simp only [Parser.expression_succ, Parser.term_succ, Parser.factor_succ, getNextToken_bang,
    Parser.primary_not, getNextToken_lparen, Parser.primary_lparen,
    getNextToken_ident hA (endsIdent_bar _), Parser.primary_identifier, getNextToken_bar,
    Parser.factorLoop_bar, Parser.termLoop_bar, getNextToken_ident hB (endsIdent_rparen _),
    getNextToken_rparen, Parser.factorLoop_rparen, Parser.termLoop_rparen, Parser.eat_rparen,
    getNextToken_nil, Parser.factorLoop_end, Parser.termLoop_end]
  rfl

/-- C19: both renderers ignore the flag of gate nodes: the structural dump and
the schematic view of a tree are those of the tree with the flag cleared on
every gate, at every depth; so the trees of `!(A|B)` and `A|B` render to the
same text in both views. -/
theorem render_ignores_gate_flag (t : ASTNode) (d : Nat) :
    UGORenderer.printAST (some (clearGateNot t)) d = UGORenderer.printAST (some t) d ∧
      UGORenderer.renderNode (some (clearGateNot t)) d = UGORenderer.renderNode (some t) d ∧
      UGORenderer.render (some (clearGateNot t)) = UGORenderer.render (some t) ∧
      ∀ A B : String, IsIdentifier A → IsIdentifier B →
        ∃ t1 t2, parse ("!(" ++ A ++ "|" ++ B ++ ")") = .ok t1 ∧ parse (A ++ "|" ++ B) = .ok t2 ∧
          UGORenderer.printAST t1 0 = UGORenderer.printAST t2 0 ∧
          UGORenderer.render t1 = UGORenderer.render t2 := by
  have hr : ∀ (u : ASTNode) (k : Nat), UGORenderer.renderNode (some (clearGateNot u)) k =
      UGORenderer.renderNode (some u) k := fun u k => renderNodeAt_clearGateNot u k
  have hR : ∀ u : ASTNode, UGORenderer.render (some (clearGateNot u)) =
      UGORenderer.render (some u) := by
    intro u; unfold UGORenderer.render; rw [hr]
  have hp : ∀ (u : ASTNode) (k : Nat), UGORenderer.printAST (some (clearGateNot u)) k =
      UGORenderer.printAST (some u) k := fun u k => printASTAt_clearGateNot u k
  refine ⟨hp t d, hr t d, hR t, fun A B hA hB => ?_⟩
  refine ⟨_, _, parse_not_paren_bar A B hA hB, parse_bar A B hA hB, ?_, ?_⟩
  · exact (hp (Gate "|" true [some (Leaf A false), some (Leaf B false)]) 0).symm
  · exact (hR (Gate "|" true [some (Leaf A false), some (Leaf B false)])).symm

/-! ## Parsing inverts fully parenthesized printing -/

theorem showTree_leaf (name : String) (neg : Bool) :
    showTree (Leaf name neg) = (if neg then "!" else "") ++ name := by
  rw [Leaf, showTree]

theorem showTree_gate (op : String) (neg : Bool) (l r : ASTNode) :
    showTree (Gate op neg [some l, some r]) =
      (if neg then "!" else "") ++ "(" ++ showTree l ++ op ++ showTree r ++ ")" := by
  rw [Gate, showTree]

mutual

theorem full_induction (P : ASTNode → Prop)
    (leaf : ∀ name neg, IsIdentifier name → P (Leaf name neg))
    (gate : ∀ op neg l r, (op = "&" ∨ op = "|" ∨ op = "^") → P l → P r →
      P (Gate op neg [some l, some r]))
    (t : ASTNode) (hw : wellFormed t = true) (ht : isTree t = true) : P t := by
  match t with
  | .mk value type children hasNot =>
    cases type with
    | IDENTIFIER =>
      rw [wellFormed] at hw
      simp only [Bool.and_eq_true, decide_eq_true_eq, List.isEmpty_iff] at hw
      obtain ⟨hname, hc⟩ := hw
      subst hc
      exact leaf value hasNot hname
    | OPERATOR =>
      rw [wellFormed] at hw
      rw [isTree] at ht
      simp only [Bool.and_eq_true, Bool.or_eq_true, beq_iff_eq] at hw
      obtain ⟨⟨hop, hlen⟩, hall⟩ := hw
      have hops : value = "&" ∨ value = "|" ∨ value = "^" := by
        rcases hop with (h | h) | h
        · exact Or.inl h
        · exact Or.inr (Or.inl h)
        · exact Or.inr (Or.inr h)
      have hrec := full_induction_all P leaf gate children hall ht
      match children, hlen, ht, hrec with
      | [some l, some r], _, _, hrec =>
        exact gate value hasNot l r hops (hrec l (by simp)) (hrec r (by simp))
      | [none, _], _, ht, _ => simp [allTrees] at ht
      | [some _, none], _, ht, _ => simp [allTrees] at ht
    | NULLID => simp [wellFormed] at hw
    | NOT => simp [wellFormed] at hw
    | LPAREN => simp [wellFormed] at hw
    | RPAREN => simp [wellFormed] at hw
    | END => simp [wellFormed] at hw

theorem full_induction_all (P : ASTNode → Prop)
    (leaf : ∀ name neg, IsIdentifier name → P (Leaf name neg))
    (gate : ∀ op neg l r, (op = "&" ∨ op = "|" ∨ op = "^") → P l → P r →
      P (Gate op neg [some l, some r]))
    (cs : List Ptr) (hw : wellFormedAll cs = true) (ht : allTrees cs = true) :
    ∀ c, some c ∈ cs → P c := by
  match cs with
  | [] => intro c hc; simp at hc
  | none :: rest => simp [allTrees] at ht
  | some child :: rest =>
    rw [wellFormedAll, Bool.and_eq_true] at hw
    rw [allTrees, Bool.and_eq_true] at ht
    intro c hc
    rcases List.mem_cons.mp hc with h | h
    · have : c = child := Option.some.inj h
      rw [this]; exact full_induction P leaf gate child hw.1 ht.1
    · exact full_induction_all P leaf gate rest hw.2 ht.2 c h

end

theorem endsIdent_amp (l : List Char) : EndsIdent ('&' :: l) := by
  show identChar '&' = false; decide

theorem endsIdent_caret (l : List Char) : EndsIdent ('^' :: l) := by
  show identChar '^' = false; decide

namespace Parser

theorem primaryReads_leaf (name : String) (h : IsIdentifier name) :
    PrimaryReads name.data (Leaf name false) := by
  intro rest hr
  refine ⟨1, fun m hm => ?_⟩
  obtain ⟨k, rfl⟩ : ∃ k, m = k + 1 := ⟨m - 1, by omega⟩
  rw [getNextToken_ident h hr, primary_identifier]

/-- A `!` in front of a primary sets the flag on the node of that primary. -/
theorem primaryReads_not {input : List Char} {node : ASTNode} (h : PrimaryReads input node) :
    PrimaryReads ('!' :: input) (node.setHasNot true) := by
  intro rest hr
  obtain ⟨N, hN⟩ := h rest hr
  refine ⟨N + 1, fun m hm => ?_⟩
  obtain ⟨k, rfl⟩ : ∃ k, m = k + 1 := ⟨m - 1, by omega⟩
  rw [List.cons_append, getNextToken_bang, primary_not, hN k (by omega)]

theorem primaryReads_amp {a b : List Char} {l r : ASTNode} (hl : PrimaryReads a l)
    (hr : PrimaryReads b r) :
    PrimaryReads ('(' :: (a ++ ('&' :: (b ++ [')'])))) (Gate "&" false [some l, some r]) := by
  intro rest _
  obtain ⟨Nl, hNl⟩ := hl ('&' :: (b ++ (')' :: rest))) (endsIdent_amp _)
  obtain ⟨Nr, hNr⟩ := hr (')' :: rest) (endsIdent_rparen _)
  refine ⟨Nl + Nr + 6, fun m hm => ?_⟩
  obtain ⟨j, rfl⟩ : ∃ j, m = j + 6 := ⟨m - 6, by omega⟩
  have e1 := hNl (j + 2) (by omega)
  have e2 := hNr (j + 1) (by omega)
  have hd : ('(' :: (a ++ ('&' :: (b ++ [')'])))) ++ rest =
      '(' :: (a ++ ('&' :: (b ++ (')' :: rest)))) := by simp
  rw [getNextToken_amp] at e1
  rw [getNextToken_rparen] at e2
  rw [hd, getNextToken_lparen, primary_lparen, expression_succ, term_succ, factor_succ, e1]
  simp only [factorLoop_amp, e2, factorLoop_rparen, termLoop_rparen, eat_rparen]

theorem primaryReads_caret {a b : List Char} {l r : ASTNode} (hl : PrimaryReads a l)
    (hr : PrimaryReads b r) :
    PrimaryReads ('(' :: (a ++ ('^' :: (b ++ [')'])))) (Gate "^" false [some l, some r]) := by
  intro rest _
  obtain ⟨Nl, hNl⟩ := hl ('^' :: (b ++ (')' :: rest))) (endsIdent_caret _)
  obtain ⟨Nr, hNr⟩ := hr (')' :: rest) (endsIdent_rparen _)
  refine ⟨Nl + Nr + 6, fun m hm => ?_⟩
  obtain ⟨j, rfl⟩ : ∃ j, m = j + 6 := ⟨m - 6, by omega⟩
  have e1 := hNl (j + 2) (by omega)
  have e2 := hNr (j + 1) (by omega)
  have hd : ('(' :: (a ++ ('^' :: (b ++ [')'])))) ++ rest =
      '(' :: (a ++ ('^' :: (b ++ (')' :: rest)))) := by simp
  rw [getNextToken_caret] at e1
  rw [getNextToken_rparen] at e2
  rw [hd, getNextToken_lparen, primary_lparen, expression_succ, term_succ, factor_succ, e1]
  simp only [factorLoop_caret, e2, factorLoop_rparen, termLoop_rparen, eat_rparen]

theorem primaryReads_bar {a b : List Char} {l r : ASTNode} (hl : PrimaryReads a l)
    (hr : PrimaryReads b r) :
    PrimaryReads ('(' :: (a ++ ('|' :: (b ++ [')'])))) (Gate "|" false [some l, some r]) := by
  intro rest _
  obtain ⟨Nl, hNl⟩ := hl ('|' :: (b ++ (')' :: rest))) (endsIdent_bar _)
  obtain ⟨Nr, hNr⟩ := hr (')' :: rest) (endsIdent_rparen _)
  refine ⟨Nl + Nr + 6, fun m hm => ?_⟩
  obtain ⟨j, rfl⟩ : ∃ j, m = j + 6 := ⟨m - 6, by omega⟩
  have e1 := hNl (j + 2) (by omega)
  have e2 := hNr (j + 1) (by omega)
  have hd : ('(' :: (a ++ ('|' :: (b ++ [')'])))) ++ rest =
      '(' :: (a ++ ('|' :: (b ++ (')' :: rest)))) := by simp
  rw [getNextToken_bar] at e1
  rw [getNextToken_rparen] at e2
  rw [hd, getNextToken_lparen, primary_lparen, expression_succ, term_succ, factor_succ, e1]
  simp only [factorLoop_bar, termLoop_bar, factor_succ, e2, factorLoop_rparen, termLoop_rparen,
    eat_rparen]

end Parser

theorem primaryReads_showTree (t : ASTNode) (hw : wellFormed t = true) (ht : isTree t = true) :
    Parser.PrimaryReads (showTree t).data t := by
  refine full_induction (fun t => Parser.PrimaryReads (showTree t).data t) ?_ ?_ t hw ht
  · intro name neg hname
    rw [showTree_leaf]
    cases neg with
    | false => exact Parser.primaryReads_leaf name hname
    | true => exact Parser.primaryReads_not (Parser.primaryReads_leaf name hname)
  · intro op neg l r hop hl hr
    rw [showTree_gate]
    have hplain : Parser.PrimaryReads
        ('(' :: ((showTree l).data ++ (op.data ++ ((showTree r).data ++ [')']))))
        (Gate op false [some l, some r]) := by
      rcases hop with rfl | rfl | rfl
      · exact Parser.primaryReads_amp hl hr
      · exact Parser.primaryReads_bar hl hr
      · exact Parser.primaryReads_caret hl hr
    cases neg with
    | false =>
      have hd : ((if false = true then "!" else "") ++ "(" ++ showTree l ++ op ++ showTree r ++
          ")").data = '(' :: ((showTree l).data ++ (op.data ++ ((showTree r).data ++ [')']))) := by
        simp [String.data_append]
      rw [hd]; exact hplain
    | true =>
      have hd : ((if true = true then "!" else "") ++ "(" ++ showTree l ++ op ++ showTree r ++
          ")").data =
          '!' :: '(' :: ((showTree l).data ++ (op.data ++ ((showTree r).data ++ [')']))) := by
        simp [String.data_append]
      rw [hd]; exact Parser.primaryReads_not hplain

/-- C20: parsing inverts fully parenthesized printing: for every tree whose
gates have an operator among `&`, `|`, `^` and exactly two present operands
and whose leaf names are identifiers, `parse (showTree t)` returns exactly
`t`, flags included. -/
theorem parse_showTree (t : ASTNode) (hw : wellFormed t = true) (ht : isTree t = true) :
    parse (showTree t) = .ok (some t) := by
  obtain ⟨N, hN⟩ := primaryReads_showTree t hw ht [] trivial
  have h := hN (N + 1) (Nat.le_succ _)
  rw [List.append_nil, getNextToken_nil] at h
  apply parse_of_expression (n := N + 4) (q := ⟨[], ⟨.END, ""⟩⟩)
  rw [Parser.new_of_data rfl, Parser.expression_succ, Parser.term_succ, Parser.factor_succ, h]
  simp only [Parser.factorLoop_end, Parser.termLoop_end]

theorem parse_showTree_witness :
    wellFormed (Gate "&" true
        [some (Leaf "a" true), some (Gate "|" false [some (Leaf "b" false), some (Leaf "c" false)])])
        = true ∧
      isTree (Gate "&" true
        [some (Leaf "a" true), some (Gate "|" false [some (Leaf "b" false), some (Leaf "c" false)])])
        = true ∧
      showTree (Gate "&" true
        [some (Leaf "a" true), some (Gate "|" false [some (Leaf "b" false), some (Leaf "c" false)])])
        = "!(!a&(b|c))" ∧
      parse "!(!a&(b|c))" = .ok (some (Gate "&" true
        [some (Leaf "a" true),
          some (Gate "|" false [some (Leaf "b" false), some (Leaf "c" false)])])) :=
  ⟨rfl, rfl, by decide,
    parse_showTree (Gate "&" true
      [some (Leaf "a" true), some (Gate "|" false [some (Leaf "b" false), some (Leaf "c" false)])])
      rfl rfl⟩

/-- An unrecognized character starts no token. -/
theorem startsToken_of_unrecognized {c : Char} (h : unrecognized c = true) :
    startsToken c = false := by
  obtain ⟨_, f2, f3, f4, f5, f6, _⟩ := unrecognized_facts h
  unfold startsToken
  rw [f2, f3, f4, f5, f6]; rfl

end Lab3
